import Mathlib

/-!
Verification of the MarkUpDownBot repository (src/bot.py, src/messages.py,
src/keyboards.py) against its natural-language specification.

Python strings are sequences of Unicode codepoints; we model them as
`List Char`.  Python's unbounded `int` is modelled by `Int` (or `Nat` where
the source value is provably non-negative).  Functions of the aiogram
library that the source imports but whose code is not part of the
repository are modelled from the specification and marked as such in their
doc comments.
-/

namespace MarkUpDownBot

/-- Number of occurrences of character `c` in string `s`
(Python `s.count(c)` for a single character). -/
def countChar (c : Char) (s : List Char) : Nat :=
  s.count c

/-- Modelled from the spec: aiogram's `LIST_MD_SYMBOLS`, the markdown-special
characters that `escape_md` escapes.  The source itself witnesses that index 2
is the backtick (it builds the triple-backtick fence from `LIST_MD_SYMBOLS[2] * 3`). -/
def LIST_MD_SYMBOLS : List Char := ['*', '_', '`', '[']

/-- Modelled from the spec: aiogram's `escape_md`, the "safe" markdown-escaping
pass that prefixes every markdown-special character with a backslash
(spec §4.2: the Escaping Counter counts the backslashes this pass introduces). -/
def escape_md : List Char → List Char
  | [] => []
  | c :: rest =>
      (if c ∈ LIST_MD_SYMBOLS then ['\\', c] else [c]) ++ escape_md rest

/-- HTML entity replacement for one character (`&`, `<`, `>` become entities). -/
def htmlQuoteChar (c : Char) : List Char :=
  if c = '&' then ['&', 'a', 'm', 'p', ';']
  else if c = '<' then ['&', 'l', 't', ';']
  else if c = '>' then ['&', 'g', 't', ';']
  else [c]

/-- Modelled from the spec: aiogram's `quote_html`, the HTML-quoting pass whose
`&` entity-introduction characters the Escaping Counter counts (spec §4.2). -/
def quote_html : List Char → List Char
  | [] => []
  | c :: rest => htmlQuoteChar c ++ quote_html rest

/-- An incoming Telegram message as `detect_message_text_formatting` sees it:
its plain text (`message.text`) and the markdown rendering of its structured
entities (`message.md_text`, evaluated under the two patches
`dont_change_plain_urls` and `dont_escape_md`).  The rendering is library
code, so the detector is verified for an arbitrary value of that field. -/
structure Message where
  text : List Char
  md_text : List Char

/-- `before_escape_md` of bot.py line 106: backslashes already in the raw text. -/
def before_escape_md (m : Message) : Int :=
  countChar '\\' m.text

/-- `before_escape_html` of bot.py line 107: ampersands already in the raw text. -/
def before_escape_html (m : Message) : Int :=
  countChar '&' m.text

/-- `escaped_md` of bot.py line 109: backslashes the markdown-escaping pass adds. -/
def escaped_md (m : Message) : Int :=
  countChar '\\' (escape_md m.text) - before_escape_md m

/-- `escaped_html` of bot.py line 110: ampersands the HTML-quoting pass adds. -/
def escaped_html (m : Message) : Int :=
  countChar '&' (quote_html m.text) - before_escape_html m

/-- `escaped_with_entities` of bot.py line 115: backslashes a markdown-escaping
pass over the entity rendering would add, relative to the raw text. -/
def escaped_with_entities (m : Message) : Int :=
  countChar '\\' (escape_md m.md_text) - before_escape_md m

/-- bot.py `detect_message_text_formatting` (lines 98-124): decides between
`None`, `'html'` and `'markdown'` from the three escape counts. -/
def detect_message_text_formatting (m : Message) : Option (List Char) :=
  if escaped_with_entities m > max (escaped_html m) (escaped_md m) then
    none
  else if escaped_html m > escaped_md m then
    some ['h', 't', 'm', 'l']
  else
    some ['m', 'a', 'r', 'k', 'd', 'o', 'w', 'n']

/-- messages.py `get_send_method` (lines 14-27): with no keyword arguments the
function falls off the end of its body and returns `None`; with at least one
keyword argument it returns the send method pre-bound to the positional
arguments and to the keyword arguments whose names the method accepts.
The pre-bound call is modelled as the pair (positional args, kept kwargs);
`acceptable_kwargs` models `inspect.getfullargspec(send_method).args`. -/
def get_send_method (acceptable_kwargs : List String) (args : List α)
    (kwargs : List (String × β)) : Option (List α × List (String × β)) :=
  if kwargs.isEmpty then
    none
  else
    some (args, kwargs.filter (fun kv => acceptable_kwargs.contains kv.1))

/-- Modelled from the spec: aiogram's original `MD_SYMBOLS` table of
(opening, closing) delimiter pairs; entry 3 is the fenced-code-block pair
whose closing fence carries the newline that bot.py removes. -/
def AIOGRAM_MD_SYMBOLS : List (List Char × List Char) :=
  [ (['*'], ['*']),
    (['_'], ['_']),
    (['`'], ['`']),
    (['`', '`', '`', '\n'], ['\n', '`', '`', '`']),
    (['<', 'b', '>'], ['<', '/', 'b', '>']),
    (['<', 'i', '>'], ['<', '/', 'i', '>']),
    (['<', 'c', 'o', 'd', 'e', '>'], ['<', '/', 'c', 'o', 'd', 'e', '>']),
    (['<', 'p', 'r', 'e', '>'], ['<', '/', 'p', 'r', 'e', '>']) ]

/-- bot.py lines 61-63: `MD_SYMBOLS[:3] + ((LIST_MD_SYMBOLS[2] * 3 + '\n',
LIST_MD_SYMBOLS[2] * 3),) + MD_SYMBOLS[4:]` — the code-block entry is replaced
so the closing fence is no longer preceded by a newline. -/
def MD_SYMBOLS : List (List Char × List Char) :=
  AIOGRAM_MD_SYMBOLS.take 3
    ++ [(List.replicate 3 (LIST_MD_SYMBOLS.getD 2 ' ') ++ ['\n'],
         List.replicate 3 (LIST_MD_SYMBOLS.getD 2 ' '))]
    ++ AIOGRAM_MD_SYMBOLS.drop 4

/-- Modelled from the spec: aiogram's `pre(...)` wrapper, which brackets its
argument in the (patched) code-block delimiters `MD_SYMBOLS[3]`. -/
def md_pre (s : List Char) : List Char :=
  (MD_SYMBOLS.getD 3 ([], [])).1 ++ s ++ (MD_SYMBOLS.getD 3 ([], [])).2

/-- Modelled from the spec: aiogram's `code(...)` wrapper, which brackets its
argument in the inline-code delimiters `MD_SYMBOLS[2]`. -/
def md_code (s : List Char) : List Char :=
  (MD_SYMBOLS.getD 2 ([], [])).1 ++ s ++ (MD_SYMBOLS.getD 2 ([], [])).2

/-- UTF-8 byte length of one codepoint (the length of Python `c.encode()`). -/
def utf8Size (c : Char) : Nat :=
  if c.toNat < 0x80 then 1
  else if c.toNat < 0x800 then 2
  else if c.toNat < 0x10000 then 3
  else 4

/-- UTF-8 byte length of a string (the length of Python `s.encode()`). -/
def utf8Len : List Char → Nat
  | [] => 0
  | c :: rest => utf8Size c + utf8Len rest

/-- Decoding of the first `n` bytes of the UTF-8 encoding of `s` (Python
`s.encode()[:n].decode()` for `n ≤ len(s.encode())`), at the codepoint level:
it succeeds exactly when `n` falls on a codepoint boundary — a cut inside a
multi-byte sequence leaves an incomplete sequence and decoding raises — and
returns the number of codepoints decoded. -/
def decodedPrefixLen : List Char → Nat → Option Nat
  | [], n => if n = 0 then some 0 else none
  | c :: rest, n =>
      if n = 0 then some 0
      else if utf8Size c ≤ n then
        (decodedPrefixLen rest (n - utf8Size c)).map (· + 1)
      else none

/-- Length of the Python slice `b[:i]` of a bytes object of length `total`:
a negative stop counts from the end, and the result is clamped to `[0, total]`. -/
def pySliceLen (total : Nat) (i : Int) : Nat :=
  if i < 0 then total - i.natAbs else min i.toNat total

/-- bot.py lines 77-78: `len(bad_text.encode()[:offset].decode())` — the
byte-offset-to-codepoint-offset translation of the error locator; `none` models
the `UnicodeDecodeError` raised when the cut is inside a multi-byte character. -/
def byteOffsetToCharOffset (s : List Char) (i : Int) : Option Nat :=
  decodedPrefixLen s (pySliceLen (utf8Len s) i)

/-- The whitespace characters Python's `str.strip()` removes (ASCII subset;
the diagnostic strings involved contain no exotic whitespace). -/
def PY_WHITESPACE : List Char := [' ', '\t', '\n', '\r', '\x0b', '\x0c']

/-- Python `s.strip()`. -/
def pyStrip (s : List Char) : List Char :=
  ((s.dropWhile (· ∈ PY_WHITESPACE)).reverse.dropWhile (· ∈ PY_WHITESPACE)).reverse

/-- Numeric value of a digit string. -/
def digitsVal (ds : List Char) : Nat :=
  ds.foldl (fun acc c => acc * 10 + (c.toNat - '0'.toNat)) 0

/-- Python `int(s)` on a string: strip whitespace, optional single sign, then
one or more decimal digits; anything else raises `ValueError` (`none`).
(PEP 515 digit-group underscores are not modelled; no input involved here
contains them.) -/
def pyParseInt (s : List Char) : Option Int :=
  match pyStrip s with
  | '+' :: ds =>
      if !ds.isEmpty && ds.all Char.isDigit then some (digitsVal ds : Int) else none
  | '-' :: ds =>
      if !ds.isEmpty && ds.all Char.isDigit then some (-(digitsVal ds : Int)) else none
  | ds =>
      if !ds.isEmpty && ds.all Char.isDigit then some (digitsVal ds : Int) else none

/-- The literal split word of bot.py line 75. -/
def OFFSET_WORD : List Char := ['o', 'f', 'f', 's', 'e', 't']

/-- The part of `s` after the last occurrence of `pat` (`none` when `pat` does
not occur): Python `s.rsplit(pat, maxsplit=1)` yields a two-element list
exactly in the `some` case, and its second element is the returned suffix. -/
def afterLastOccurrence (pat : List Char) : List Char → Option (List Char)
  | [] => none
  | c :: rest =>
      match afterLastOccurrence pat rest with
      | some r => some r
      | none =>
          if pat.isPrefixOf (c :: rest) then some ((c :: rest).drop pat.length)
          else none

/-- bot.py lines 75-76: `_, offset = exc_message.rsplit('offset', maxsplit=1)`
followed by `offset = int(offset.strip())`.  `none` models the `ValueError`
raised either by unpacking a one-element split result (no occurrence of
`'offset'`) or by `int()` on a non-numeric suffix. -/
def parseOffsetOf (exc_message : List Char) : Option Int :=
  (afterLastOccurrence OFFSET_WORD exc_message).bind pyParseInt

/-- bot.py line 90: newline replacement keeping the excerpt single-line. -/
def newlinesToSpaces (s : List Char) : List Char :=
  s.map (fun c => if c = '\n' then ' ' else c)

/-- bot.py line 79: the appended `f', (chars offset {offset})'` fragment. -/
def offsetNote (off : Nat) : List Char :=
  [',', ' ', '(', 'c', 'h', 'a', 'r', 's', ' ', 'o', 'f', 'f', 's', 'e', 't', ' ']
    ++ (Nat.repr off).toList ++ [')']

/-- bot.py `get_error_caption` (lines 66-95).  The `try` block parses a byte
offset out of `exc_message` and translates it to a codepoint offset; on any
`ValueError` (offset unparseable, or prefix undecodable) the incoming
`exc_message` is returned unchanged; otherwise the excerpt and caret caption
is appended. -/
def get_error_caption (bad_text exc_message : List Char) : List Char :=
  match parseOffsetOf exc_message with
  | none => exc_message
  | some byteOff =>
      match byteOffsetToCharOffset bad_text byteOff with
      | none => exc_message
      | some off =>
          let chars_before := if off < 25 then off else 25
          let bad_char := off + 1
          let start := bad_char - chars_before
          let bad_line := ((newlinesToSpaces bad_text).drop start).take (off + 5 - start)
          let pointer_line := List.replicate (chars_before - 1) ' ' ++ ['^']
          exc_message ++ offsetNote off
            ++ [':', '\n', '\n'] ++ md_pre bad_line ++ ['\n'] ++ md_code pointer_line

/-! ### The rich-text model and the two dialect serializers

The RichText value type, `toMarkdown`/`toHtml` and the parsers
`fromMarkdown`/`fromHtml` are the spec's Dialect Serializer component
(spec §3, §4.1).  The serializers' delimiters and escaping are those the
source configures (the patched `MD_SYMBOLS`, `escape_md`'s symbol set,
`quote_html`'s entities, plain-URL passthrough); the parsers are not part of
the repository (parsing happens on Telegram's side), so they are modelled
from the spec: partial functions that invert the serializers and fail on
unbalanced or ill-delimited markup. -/

/-- Annotation kind (spec §3; `PlainURL` passthrough text carries no
annotation at all, so it does not appear here). -/
inductive AnnKind
  | bold
  | italic
  | code
  | codeBlock
  | link
  | mention
  deriving DecidableEq

/-- An annotation anchored at codepoint offsets `[start, stop)` of the plain
text; `payload` is the URL for `link`, the user id for `mention` (spec §3). -/
structure Ann where
  kind : AnnKind
  start : Nat
  stop : Nat
  payload : Option (List Char)
  deriving DecidableEq

/-- RichText: plain text plus annotations (spec §3). -/
structure RichText where
  plain : List Char
  anns : List Ann
  deriving DecidableEq

/-- The Telegram user-mention URL prefix (bot.py line 46 shows the scheme). -/
def TG_USER_PREFIX : List Char :=
  ['t', 'g', ':', '/', '/', 'u', 's', 'e', 'r', '?', 'i', 'd', '=']

/-- Move an annotation `n` codepoints to the right. -/
def shiftAnn (n : Nat) (a : Ann) : Ann :=
  { a with start := a.start + n, stop := a.stop + n }

/-- Move an annotation `n` codepoints to the left (truncated at 0). -/
def unshiftAnn (n : Nat) (a : Ann) : Ann :=
  { a with start := a.start - n, stop := a.stop - n }

/-- Prepend one plain character to a parsed RichText. -/
def consPlain (c : Char) (r : RichText) : RichText :=
  ⟨c :: r.plain, r.anns.map (shiftAnn 1)⟩

/-- Prepend one freshly parsed annotation (with its content) to a RichText. -/
def consAnn (k : AnnKind) (content : List Char) (payload : Option (List Char))
    (r : RichText) : RichText :=
  ⟨content ++ r.plain,
    ⟨k, 0, content.length, payload⟩ :: r.anns.map (shiftAnn content.length)⟩

/-- Prepend a run of plain characters to a parsed RichText. -/
def prependPlain (g : List Char) (r : RichText) : RichText :=
  ⟨g ++ r.plain, r.anns.map (shiftAnn g.length)⟩

/-- Markdown delimiters for one annotation, read off the (patched)
`MD_SYMBOLS` table for the plain-style kinds; links and mentions use the
`[text](target)` form, a mention's target being the `tg://user?id=` URL. -/
def wrapMd (k : AnnKind) (content : List Char) (payload : Option (List Char)) :
    List Char :=
  match k with
  | .bold => (MD_SYMBOLS.getD 0 ([], [])).1 ++ content ++ (MD_SYMBOLS.getD 0 ([], [])).2
  | .italic => (MD_SYMBOLS.getD 1 ([], [])).1 ++ content ++ (MD_SYMBOLS.getD 1 ([], [])).2
  | .code => (MD_SYMBOLS.getD 2 ([], [])).1 ++ content ++ (MD_SYMBOLS.getD 2 ([], [])).2
  | .codeBlock => (MD_SYMBOLS.getD 3 ([], [])).1 ++ content ++ (MD_SYMBOLS.getD 3 ([], [])).2
  | .link => ['['] ++ content ++ [']', '('] ++ payload.getD [] ++ [')']
  | .mention => ['['] ++ content ++ [']', '('] ++ TG_USER_PREFIX ++ payload.getD [] ++ [')']

/-- HTML tags for one annotation, read off entries 4-7 of `MD_SYMBOLS`
(unchanged by the bot.py patch); links and mentions use an `<a href="...">`
anchor. -/
def wrapHtml (k : AnnKind) (content : List Char) (payload : Option (List Char)) :
    List Char :=
  match k with
  | .bold => (MD_SYMBOLS.getD 4 ([], [])).1 ++ content ++ (MD_SYMBOLS.getD 4 ([], [])).2
  | .italic => (MD_SYMBOLS.getD 5 ([], [])).1 ++ content ++ (MD_SYMBOLS.getD 5 ([], [])).2
  | .code => (MD_SYMBOLS.getD 6 ([], [])).1 ++ content ++ (MD_SYMBOLS.getD 6 ([], [])).2
  | .codeBlock => (MD_SYMBOLS.getD 7 ([], [])).1 ++ content ++ (MD_SYMBOLS.getD 7 ([], [])).2
  | .link =>
      ['<', 'a', ' ', 'h', 'r', 'e', 'f', '=', '"'] ++ payload.getD []
        ++ ['"', '>'] ++ content ++ ['<', '/', 'a', '>']
  | .mention =>
      ['<', 'a', ' ', 'h', 'r', 'e', 'f', '=', '"'] ++ TG_USER_PREFIX ++ payload.getD []
        ++ ['"', '>'] ++ content ++ ['<', '/', 'a', '>']

/-- Modelled from the spec (§4.1): walk the annotations in order, escape the
plain gaps with `escape_md`, and wrap each annotated substring in its
markdown delimiters. -/
def renderMdFrom (plain : List Char) (cursor : Nat) : List Ann → List Char
  | [] => escape_md (plain.drop cursor)
  | a :: rest =>
      escape_md ((plain.drop cursor).take (a.start - cursor))
        ++ wrapMd a.kind ((plain.drop a.start).take (a.stop - a.start)) a.payload
        ++ renderMdFrom plain a.stop rest

/-- Modelled from the spec (§4.1, §6): `serialize(richText, Markdown)`. -/
def toMarkdown (r : RichText) : List Char :=
  renderMdFrom r.plain 0 r.anns

/-- Modelled from the spec (§4.1): the HTML rendering, quoting plain gaps with
`quote_html` and wrapping annotated substrings in tags. -/
def renderHtmlFrom (plain : List Char) (cursor : Nat) : List Ann → List Char
  | [] => quote_html (plain.drop cursor)
  | a :: rest =>
      quote_html ((plain.drop cursor).take (a.start - cursor))
        ++ wrapHtml a.kind ((plain.drop a.start).take (a.stop - a.start)) a.payload
        ++ renderHtmlFrom plain a.stop rest

/-- Modelled from the spec (§4.1, §6): `serialize(richText, Html)`. -/
def toHtml (r : RichText) : List Char :=
  renderHtmlFrom r.plain 0 r.anns

/-- Split `s` at the first occurrence of the pattern `pat`, returning the part
before it and the part after it; `none` when `pat` does not occur. -/
def splitAtSeq (pat : List Char) : List Char → Option (List Char × List Char)
  | [] => none
  | c :: rest =>
      if pat.isPrefixOf (c :: rest) then some ([], (c :: rest).drop pat.length)
      else (splitAtSeq pat rest).map (fun p => (c :: p.1, p.2))

theorem isPrefixOf_take_drop (p s : List Char) (h : p.isPrefixOf s = true) :
    s = p ++ s.drop p.length := by
  rw [List.isPrefixOf_iff_prefix] at h
  obtain ⟨t, rfl⟩ := h
  rw [List.drop_left]

theorem splitAtSeq_eq (pat : List Char) (s a b : List Char)
    (h : splitAtSeq pat s = some (a, b)) : s = a ++ pat ++ b := by
  induction s generalizing a with
  | nil => simp [splitAtSeq] at h
  | cons c rest ih =>
      by_cases hp : pat.isPrefixOf (c :: rest)
      · simp [splitAtSeq, hp] at h
        obtain ⟨h1, h2⟩ := h
        subst h1 h2
        simpa using isPrefixOf_take_drop pat (c :: rest) hp
      · match hs : splitAtSeq pat rest with
        | none => simp [splitAtSeq, hp, hs] at h
        | some (a', b') =>
            simp [splitAtSeq, hp, hs] at h
            obtain ⟨h1, h2⟩ := h
            subst h2
            have := ih a' hs
            subst h1
            simp [this]

theorem splitAtSeq_length (pat : List Char) (s a b : List Char)
    (hpat : pat ≠ []) (h : splitAtSeq pat s = some (a, b)) :
    b.length < s.length := by
  have heq := splitAtSeq_eq pat s a b h
  subst heq
  have h1 : 1 ≤ pat.length := by
    cases pat with
    | nil => simp at hpat
    | cons x xs => simp
  simp [List.length_append]
  omega

theorem isPrefixOf_append_self (p q : List Char) : p.isPrefixOf (p ++ q) = true := by
  rw [List.isPrefixOf_iff_prefix]
  exact List.prefix_append p q

theorem splitAtSeq_append (p0 : Char) (ptail content X : List Char)
    (hni : p0 ∉ content) :
    splitAtSeq (p0 :: ptail) (content ++ (p0 :: ptail) ++ X) = some (content, X) := by
  induction content with
  | nil =>
      have hc : (p0 :: ptail).isPrefixOf (p0 :: (ptail ++ X)) = true := by
        rw [show p0 :: (ptail ++ X) = (p0 :: ptail) ++ X from rfl]
        exact isPrefixOf_append_self _ _
      show splitAtSeq (p0 :: ptail) (p0 :: (ptail ++ X)) = some ([], X)
      rw [splitAtSeq, if_pos hc,
        show p0 :: (ptail ++ X) = (p0 :: ptail) ++ X from rfl, List.drop_left]
  | cons c content' ih =>
      have hne : p0 ≠ c := by
        intro h
        exact hni (by simp [h])
      have hc : ¬ (p0 :: ptail).isPrefixOf
          (c :: ((content' ++ (p0 :: ptail)) ++ X)) = true := by
        simp [List.isPrefixOf]
        intro h
        exact absurd h hne
      have ih' := ih (fun hmem => hni (List.mem_cons_of_mem c hmem))
      show splitAtSeq (p0 :: ptail) (c :: ((content' ++ (p0 :: ptail)) ++ X)) =
        some (c :: content', X)
      rw [splitAtSeq, if_neg hc, ih']
      simp

/-- The `](…)` tail of a markdown link: split the text at the closing
bracket, require an immediately following opening parenthesis, and split at
the closing parenthesis; returns (link text, target, remainder). -/
def parseLinkParts (s : List Char) : Option (List Char × List Char × List Char) :=
  (splitAtSeq [']'] s).bind fun cp =>
    match cp.2 with
    | '(' :: rest2 => (splitAtSeq [')'] rest2).map (fun up => (cp.1, up.1, up.2))
    | _ => none

theorem parseLinkParts_eq (s content url rest3 : List Char)
    (h : parseLinkParts s = some (content, url, rest3)) :
    s = content ++ [']'] ++ ('(' :: (url ++ [')'] ++ rest3)) := by
  unfold parseLinkParts at h
  rw [Option.bind_eq_some] at h
  obtain ⟨⟨content1, rest1⟩, hs, h2⟩ := h
  split at h2
  · rename_i rest2 heq
    rw [Option.map_eq_some'] at h2
    obtain ⟨⟨url1, rest4⟩, hs2, h3⟩ := h2
    cases h3
    have e1 := splitAtSeq_eq _ _ _ _ hs
    have e2 := splitAtSeq_eq _ _ _ _ hs2
    subst e2
    rw [show ((content1, rest1).2 : List Char) = rest1 from rfl] at heq
    rw [heq] at e1
    show s = content1 ++ [']'] ++ '(' :: (url1 ++ [')'] ++ rest4)
    simpa using e1
  · exact absurd h2 (by simp)

theorem parseLinkParts_length (s content url rest3 : List Char)
    (h : parseLinkParts s = some (content, url, rest3)) :
    rest3.length < s.length := by
  have := parseLinkParts_eq s content url rest3 h
  subst this
  simp [List.length_append]
  omega

theorem parseLinkParts_append (content url X : List Char)
    (hc : ']' ∉ content) (hu : ')' ∉ url) :
    parseLinkParts (content ++ [']'] ++ ('(' :: (url ++ [')'] ++ X))) =
      some (content, url, X) := by
  unfold parseLinkParts
  rw [splitAtSeq_append ']' [] content ('(' :: (url ++ [')'] ++ X)) hc]
  rw [Option.some_bind]
  rw [show ((content, '(' :: (url ++ [')'] ++ X)).2 : List Char) =
    '(' :: (url ++ [')'] ++ X) from rfl]
  rw [show (match '(' :: (url ++ [')'] ++ X) with
      | '(' :: rest2 =>
          (splitAtSeq [')'] rest2).map
            (fun up => ((content, '(' :: (url ++ [')'] ++ X)).1, up.1, up.2))
      | _ => none) =
    (splitAtSeq [')'] (url ++ [')'] ++ X)).map
      (fun up => (content, up.1, up.2)) from rfl]
  rw [splitAtSeq_append ')' [] url X hu]
  rfl

/-- The `…">…</a>` tail of an HTML anchor: split at the attribute-closing
`">`, then at the closing tag; returns (target, anchor text, remainder). -/
def parseATagParts (s : List Char) : Option (List Char × List Char × List Char) :=
  (splitAtSeq ['"', '>'] s).bind fun up =>
    (splitAtSeq ['<', '/', 'a', '>'] up.2).map (fun cp => (up.1, cp.1, cp.2))

theorem parseATagParts_eq (s url content rest2 : List Char)
    (h : parseATagParts s = some (url, content, rest2)) :
    s = url ++ ['"', '>'] ++ (content ++ ['<', '/', 'a', '>'] ++ rest2) := by
  unfold parseATagParts at h
  rw [Option.bind_eq_some] at h
  obtain ⟨⟨url1, rest1⟩, hs, h2⟩ := h
  rw [Option.map_eq_some'] at h2
  obtain ⟨⟨content1, rest3⟩, hs2, h3⟩ := h2
  cases h3
  have e1 := splitAtSeq_eq _ _ _ _ hs
  have e2 := splitAtSeq_eq _ _ _ _ hs2
  subst e2
  simpa [List.append_assoc] using e1

theorem parseATagParts_length (s url content rest2 : List Char)
    (h : parseATagParts s = some (url, content, rest2)) :
    rest2.length < s.length := by
  have := parseATagParts_eq s url content rest2 h
  subst this
  simp [List.length_append]
  omega

theorem parseATagParts_append (url content X : List Char)
    (hu : '"' ∉ url) (hc : '<' ∉ content) :
    parseATagParts (url ++ ['"', '>'] ++ (content ++ ['<', '/', 'a', '>'] ++ X)) =
      some (url, content, X) := by
  unfold parseATagParts
  rw [splitAtSeq_append '"' ['>'] url (content ++ ['<', '/', 'a', '>'] ++ X) hu]
  rw [Option.some_bind]
  rw [show ((url, content ++ ['<', '/', 'a', '>'] ++ X).2 : List Char) =
    content ++ ['<', '/', 'a', '>'] ++ X from rfl]
  rw [splitAtSeq_append '<' ['/', 'a', '>'] content X hc]
  rfl

/-- One parsing step: the head of the input either ends the parse, fails,
yields one plain character, or yields one annotation with its content, each
with the remaining input. -/
inductive ParseStep where
  | done (r : RichText)
  | fail
  | plainStep (c : Char) (rest : List Char)
  | annStep (k : AnnKind) (content : List Char) (payload : Option (List Char))
      (rest : List Char)
  deriving DecidableEq

/-- Scan for a closing delimiter: the text up to the first occurrence of
`close` is the annotation's content; no occurrence is a `ParseError`. -/
def closeStep (k : AnnKind) (close : List Char) (s : List Char) : ParseStep :=
  match splitAtSeq close s with
  | none => .fail
  | some (content, rest1) => .annStep k content none rest1

/-- Classify a parsed link tail: a target carrying the `tg://user?id=` prefix
is a mention, anything else a link. -/
def linkStepOf (content url rest3 : List Char) : ParseStep :=
  if TG_USER_PREFIX.isPrefixOf url then
    .annStep .mention content (some (url.drop TG_USER_PREFIX.length)) rest3
  else
    .annStep .link content (some url) rest3

/-- Apply `linkStepOf` to the optional result of `parseLinkParts`. -/
def linkStepParts : Option (List Char × List Char × List Char) → ParseStep
  | none => .fail
  | some (content, url, rest3) => linkStepOf content url rest3

/-- Apply `linkStepOf` to the optional result of `parseATagParts` (whose first
component is the target, not the anchor text). -/
def aStepParts : Option (List Char × List Char × List Char) → ParseStep
  | none => .fail
  | some (url, content, rest3) => linkStepOf content url rest3

/-- Modelled from the spec (§4.1): one step of the markdown parser.  A
backslash escapes the following character; an unescaped delimiter opens an
annotation whose content runs to the matching closing delimiter; a missing
closing delimiter is a `ParseError` (`.fail`). -/
def parseMdStep : List Char → ParseStep
  | [] => .done ⟨[], []⟩
  | c :: rest =>
      if c = '\\' then
        match rest with
        | [] => .done ⟨['\\'], []⟩
        | c2 :: rest2 => .plainStep c2 rest2
      else if c = '*' then closeStep .bold ['*'] rest
      else if c = '_' then closeStep .italic ['_'] rest
      else if c = '`' then
        if rest.take 3 = ['`', '`', '\n'] then
          closeStep .codeBlock ['`', '`', '`'] (rest.drop 3)
        else closeStep .code ['`'] rest
      else if c = '[' then linkStepParts (parseLinkParts rest)
      else .plainStep c rest

/-- Modelled from the spec (§4.1): one step of the HTML parser.  `&` must
introduce one of the three entities `quote_html` emits; `<` must open one of
the emitted tags, whose content runs to the matching closing tag; anything
else after `&` or `<` is a `ParseError` (`.fail`). -/
def parseHtmlStep : List Char → ParseStep
  | [] => .done ⟨[], []⟩
  | c :: rest =>
      if c = '&' then
        if rest.take 4 = ['a', 'm', 'p', ';'] then .plainStep '&' (rest.drop 4)
        else if rest.take 3 = ['l', 't', ';'] then .plainStep '<' (rest.drop 3)
        else if rest.take 3 = ['g', 't', ';'] then .plainStep '>' (rest.drop 3)
        else .fail
      else if c = '<' then
        if rest.take 2 = ['b', '>'] then
          closeStep .bold ['<', '/', 'b', '>'] (rest.drop 2)
        else if rest.take 2 = ['i', '>'] then
          closeStep .italic ['<', '/', 'i', '>'] (rest.drop 2)
        else if rest.take 5 = ['c', 'o', 'd', 'e', '>'] then
          closeStep .code ['<', '/', 'c', 'o', 'd', 'e', '>'] (rest.drop 5)
        else if rest.take 4 = ['p', 'r', 'e', '>'] then
          closeStep .codeBlock ['<', '/', 'p', 'r', 'e', '>'] (rest.drop 4)
        else if rest.take 8 = ['a', ' ', 'h', 'r', 'e', 'f', '=', '"'] then
          aStepParts (parseATagParts (rest.drop 8))
        else .fail
      else .plainStep c rest

/-- The parse driver: repeat a step function, assembling the RichText; the
fuel only bounds the recursion and is irrelevant once it exceeds the input
length (`parseF_fuel`). -/
def parseF (step : List Char → ParseStep) : Nat → List Char → Option RichText
  | 0, _ => none
  | fuel + 1, s =>
      match step s with
      | .done r => some r
      | .fail => none
      | .plainStep c rest => (parseF step fuel rest).map (consPlain c)
      | .annStep k content payload rest =>
          (parseF step fuel rest).map (consAnn k content payload)

/-- A step function consumes input: every continuation is strictly shorter. -/
def StepDecreasing (step : List Char → ParseStep) : Prop :=
  (∀ s c rest, step s = .plainStep c rest → rest.length < s.length) ∧
  (∀ s k content payload rest,
    step s = .annStep k content payload rest → rest.length < s.length)

theorem closeStep_ne_plain (k : AnnKind) (close s : List Char) (c : Char)
    (rest : List Char) : closeStep k close s ≠ .plainStep c rest := by
  unfold closeStep
  split <;> simp

theorem linkStepOf_ne_plain (content url rest3 : List Char) (c : Char)
    (rest : List Char) : linkStepOf content url rest3 ≠ .plainStep c rest := by
  unfold linkStepOf
  split <;> simp

theorem closeStep_length (k : AnnKind) (close s : List Char) (hclose : close ≠ [])
    (k2 : AnnKind) (c2 : List Char) (p2 : Option (List Char)) (r2 : List Char)
    (h : closeStep k close s = .annStep k2 c2 p2 r2) : r2.length < s.length := by
  unfold closeStep at h
  split at h
  · simp at h
  · rename_i content rest1 hsp
    have hl := splitAtSeq_length _ _ _ _ hclose hsp
    simp at h
    obtain ⟨-, -, -, h4⟩ := h
    subst h4
    omega

theorem linkStepOf_rest (content url rest3 : List Char)
    (k2 : AnnKind) (c2 : List Char) (p2 : Option (List Char)) (r2 : List Char)
    (h : linkStepOf content url rest3 = .annStep k2 c2 p2 r2) : r2 = rest3 := by
  unfold linkStepOf at h
  split at h <;> (simp at h; exact h.2.2.2.symm)

theorem linkStepParts_ne_plain (parts : Option (List Char × List Char × List Char))
    (c : Char) (rest : List Char) : linkStepParts parts ≠ .plainStep c rest := by
  match parts with
  | none => simp [linkStepParts]
  | some (content, url, rest3) =>
      simp only [linkStepParts]
      exact linkStepOf_ne_plain _ _ _ _ _

theorem aStepParts_ne_plain (parts : Option (List Char × List Char × List Char))
    (c : Char) (rest : List Char) : aStepParts parts ≠ .plainStep c rest := by
  match parts with
  | none => simp [aStepParts]
  | some (url, content, rest3) =>
      simp only [aStepParts]
      exact linkStepOf_ne_plain _ _ _ _ _

theorem linkStepParts_length (s : List Char) (k2 : AnnKind) (c2 : List Char)
    (p2 : Option (List Char)) (r2 : List Char)
    (h : linkStepParts (parseLinkParts s) = .annStep k2 c2 p2 r2) :
    r2.length < s.length := by
  match hp : parseLinkParts s with
  | none => rw [hp] at h; simp [linkStepParts] at h
  | some (content, url, rest3) =>
      rw [hp] at h
      simp only [linkStepParts] at h
      have := linkStepOf_rest _ _ _ _ _ _ _ h
      subst this
      exact parseLinkParts_length _ _ _ _ hp

theorem aStepParts_length (s : List Char) (k2 : AnnKind) (c2 : List Char)
    (p2 : Option (List Char)) (r2 : List Char)
    (h : aStepParts (parseATagParts s) = .annStep k2 c2 p2 r2) :
    r2.length < s.length := by
  match hp : parseATagParts s with
  | none => rw [hp] at h; simp [aStepParts] at h
  | some (url, content, rest3) =>
      rw [hp] at h
      simp only [aStepParts] at h
      have := linkStepOf_rest _ _ _ _ _ _ _ h
      subst this
      exact parseATagParts_length _ _ _ _ hp

theorem parseMdStep_decreasing : StepDecreasing parseMdStep := by
  constructor
  · intro s c rest h
    match s with
    | [] => simp [parseMdStep] at h
    | c0 :: rest0 =>
        simp only [parseMdStep] at h
        split_ifs at h
        all_goals first
          | exact absurd h (closeStep_ne_plain _ _ _ _ _)
          | exact absurd h (linkStepParts_ne_plain _ _ _)
          | exact absurd h (aStepParts_ne_plain _ _ _)
          | (simp at h
             obtain ⟨h1, h2⟩ := h
             subst h2
             simp
             try omega)
          | (split at h
             · simp at h
             · simp at h
               obtain ⟨h1, h2⟩ := h
               subst h2
               simp
               try omega)
          | simp at h
  · intro s k content payload rest h
    match s with
    | [] => simp [parseMdStep] at h
    | c0 :: rest0 =>
        simp only [parseMdStep] at h
        split_ifs at h
        all_goals first
          | simp at h
          | (have hcl := closeStep_length _ _ _ (by simp) _ _ _ _ h
             simp at hcl ⊢
             try omega)
          | (have hl := linkStepParts_length _ _ _ _ _ h
             simp at hl ⊢
             try omega)
          | (have hl := aStepParts_length _ _ _ _ _ h
             simp at hl ⊢
             try omega)
          | (split at h <;> simp_all)

theorem parseHtmlStep_decreasing : StepDecreasing parseHtmlStep := by
  constructor
  · intro s c rest h
    match s with
    | [] => simp [parseHtmlStep] at h
    | c0 :: rest0 =>
        simp only [parseHtmlStep] at h
        split_ifs at h
        all_goals first
          | exact absurd h (closeStep_ne_plain _ _ _ _ _)
          | exact absurd h (linkStepParts_ne_plain _ _ _)
          | exact absurd h (aStepParts_ne_plain _ _ _)
          | (simp at h
             obtain ⟨h1, h2⟩ := h
             subst h2
             simp
             try omega)
          | (split at h
             · simp at h
             · simp at h
               obtain ⟨h1, h2⟩ := h
               subst h2
               simp
               try omega)
          | simp at h
          | simp at h
  · intro s k content payload rest h
    match s with
    | [] => simp [parseHtmlStep] at h
    | c0 :: rest0 =>
        simp only [parseHtmlStep] at h
        split_ifs at h
        all_goals first
          | simp at h
          | (have hcl := closeStep_length _ _ _ (by simp) _ _ _ _ h
             simp at hcl ⊢
             try omega)
          | (have hl := linkStepParts_length _ _ _ _ _ h
             simp at hl ⊢
             try omega)
          | (have hl := aStepParts_length _ _ _ _ _ h
             simp at hl ⊢
             try omega)
          | (split at h <;> simp_all)

theorem parseF_fuel (step : List Char → ParseStep) (hdec : StepDecreasing step) :
    ∀ (f1 f2 : Nat) (s : List Char), s.length < f1 → s.length < f2 →
      parseF step f1 s = parseF step f2 s := by
  intro f1
  induction f1 with
  | zero =>
      intro f2 s h1
      omega
  | succ g1 ih =>
      intro f2 s h1 h2
      match f2 with
      | g2 + 1 =>
          simp only [parseF]
          cases hstep : step s with
          | done r => rfl
          | fail => rfl
          | plainStep c rest =>
              have hr := hdec.1 s c rest hstep
              show (parseF step g1 rest).map (consPlain c) =
                (parseF step g2 rest).map (consPlain c)
              rw [ih g2 rest (by omega) (by omega)]
          | annStep k content payload rest =>
              have hr := hdec.2 s k content payload rest hstep
              show (parseF step g1 rest).map (consAnn k content payload) =
                (parseF step g2 rest).map (consAnn k content payload)
              rw [ih g2 rest (by omega) (by omega)]

theorem parseF_step_plain (step : List Char → ParseStep) (s : List Char)
    (c : Char) (rest : List Char) (h : step s = .plainStep c rest)
    (f : Nat) (hf : 0 < f) :
    parseF step f s = (parseF step (f - 1) rest).map (consPlain c) := by
  match f, hf with
  | g + 1, _ =>
      simp only [parseF, h, Nat.add_sub_cancel]

theorem parseF_step_ann (step : List Char → ParseStep) (s : List Char)
    (k : AnnKind) (content : List Char) (payload : Option (List Char))
    (rest : List Char) (h : step s = .annStep k content payload rest)
    (f : Nat) (hf : 0 < f) :
    parseF step f s = (parseF step (f - 1) rest).map (consAnn k content payload) := by
  match f, hf with
  | g + 1, _ =>
      simp only [parseF, h, Nat.add_sub_cancel]

/-- Modelled from the spec (§4.1, §6): `deserialize(text, Markdown)` — the
partial inverse of `toMarkdown`, run by stepping `parseMdStep`. -/
def fromMarkdown (s : List Char) : Option RichText :=
  parseF parseMdStep (s.length + 1) s

/-- Modelled from the spec (§4.1, §6): `deserialize(text, Html)` — the
partial inverse of `toHtml`, run by stepping `parseHtmlStep`. -/
def fromHtml (s : List Char) : Option RichText :=
  parseF parseHtmlStep (s.length + 1) s

theorem fromMarkdown_step_plain (s : List Char) (c : Char) (rest : List Char)
    (h : parseMdStep s = .plainStep c rest) :
    fromMarkdown s = (fromMarkdown rest).map (consPlain c) := by
  have hr := parseMdStep_decreasing.1 s c rest h
  unfold fromMarkdown
  rw [parseF_step_plain parseMdStep s c rest h (s.length + 1) (by omega)]
  rw [show s.length + 1 - 1 = s.length from rfl]
  rw [parseF_fuel parseMdStep parseMdStep_decreasing s.length
    (rest.length + 1) rest hr (by omega)]

theorem fromMarkdown_step_ann (s : List Char) (k : AnnKind) (content : List Char)
    (payload : Option (List Char)) (rest : List Char)
    (h : parseMdStep s = .annStep k content payload rest) :
    fromMarkdown s = (fromMarkdown rest).map (consAnn k content payload) := by
  have hr := parseMdStep_decreasing.2 s k content payload rest h
  unfold fromMarkdown
  rw [parseF_step_ann parseMdStep s k content payload rest h (s.length + 1) (by omega)]
  rw [show s.length + 1 - 1 = s.length from rfl]
  rw [parseF_fuel parseMdStep parseMdStep_decreasing s.length
    (rest.length + 1) rest hr (by omega)]

theorem fromHtml_step_plain (s : List Char) (c : Char) (rest : List Char)
    (h : parseHtmlStep s = .plainStep c rest) :
    fromHtml s = (fromHtml rest).map (consPlain c) := by
  have hr := parseHtmlStep_decreasing.1 s c rest h
  unfold fromHtml
  rw [parseF_step_plain parseHtmlStep s c rest h (s.length + 1) (by omega)]
  rw [show s.length + 1 - 1 = s.length from rfl]
  rw [parseF_fuel parseHtmlStep parseHtmlStep_decreasing s.length
    (rest.length + 1) rest hr (by omega)]

theorem fromHtml_step_ann (s : List Char) (k : AnnKind) (content : List Char)
    (payload : Option (List Char)) (rest : List Char)
    (h : parseHtmlStep s = .annStep k content payload rest) :
    fromHtml s = (fromHtml rest).map (consAnn k content payload) := by
  have hr := parseHtmlStep_decreasing.2 s k content payload rest h
  unfold fromHtml
  rw [parseF_step_ann parseHtmlStep s k content payload rest h (s.length + 1) (by omega)]
  rw [show s.length + 1 - 1 = s.length from rfl]
  rw [parseF_fuel parseHtmlStep parseHtmlStep_decreasing s.length
    (rest.length + 1) rest hr (by omega)]

theorem fromMarkdown_nil : fromMarkdown [] = some ⟨[], []⟩ := by
  simp [fromMarkdown, parseF, parseMdStep]

theorem fromHtml_nil : fromHtml [] = some ⟨[], []⟩ := by
  simp [fromHtml, parseF, parseHtmlStep]

/-! ### Supporting lemmas -/

theorem shiftAnn_shiftAnn (m n : Nat) (a : Ann) :
    shiftAnn m (shiftAnn n a) = shiftAnn (n + m) a := by
  cases a
  simp [shiftAnn, Nat.add_assoc]

theorem shiftAnn_zero (a : Ann) : shiftAnn 0 a = a := by
  cases a
  simp [shiftAnn]

theorem prependPlain_nil (r : RichText) : prependPlain [] r = r := by
  cases r
  have h : shiftAnn 0 = id := funext shiftAnn_zero
  simp [prependPlain, h]

theorem consPlain_prependPlain (c : Char) (g : List Char) (r : RichText) :
    consPlain c (prependPlain g r) = prependPlain (c :: g) r := by
  cases r
  simp [consPlain, prependPlain, List.map_map, Function.comp_def, shiftAnn_shiftAnn]

theorem utf8Size_pos (c : Char) : 1 ≤ utf8Size c := by
  unfold utf8Size
  split_ifs <;> omega

theorem utf8Len_take_le (s : List Char) (k : Nat) :
    utf8Len (s.take k) ≤ utf8Len s := by
  induction s generalizing k with
  | nil => simp
  | cons c rest ih =>
      cases k with
      | zero => simp [utf8Len]
      | succ k' =>
          simp only [List.take_succ_cons, utf8Len]
          exact Nat.add_le_add_left (ih k') _

theorem decodedPrefixLen_take (s : List Char) (k : Nat) (hk : k ≤ s.length) :
    decodedPrefixLen s (utf8Len (s.take k)) = some k := by
  induction s generalizing k with
  | nil =>
      have hz : k = 0 := by simpa using hk
      subst hz
      simp [decodedPrefixLen, utf8Len]
  | cons c rest ih =>
      cases k with
      | zero => simp [decodedPrefixLen, utf8Len]
      | succ k' =>
          have h1 : 1 ≤ utf8Size c := utf8Size_pos c
          have hk' : k' ≤ rest.length := by simpa using hk
          have hne : ¬ (utf8Size c + utf8Len (rest.take k') = 0) := by omega
          have hle : utf8Size c ≤ utf8Size c + utf8Len (rest.take k') :=
            Nat.le_add_right _ _
          simp [decodedPrefixLen, utf8Len, hne, hle, Nat.add_sub_cancel_left, ih k' hk']

theorem byteOffsetToCharOffset_boundary (s : List Char) (k : Nat)
    (hk : k ≤ s.length) :
    byteOffsetToCharOffset s (utf8Len (s.take k) : Int) = some k := by
  unfold byteOffsetToCharOffset pySliceLen
  have hnn : ¬ ((utf8Len (s.take k) : Int) < 0) := by omega
  simp only [hnn, if_false, Int.toNat_natCast]
  rw [Nat.min_eq_left (utf8Len_take_le s k)]
  exact decodedPrefixLen_take s k hk

/-- The success path of `get_error_caption` in closed form: once a byte offset
parses out of the description and translates to codepoint offset `off`, the
output is the description, the `(chars offset …)` note, the excerpt bracketed
by `pre`, and the caret line bracketed by `code`. -/
theorem get_error_caption_success (text exc : List Char) (i : Int) (off : Nat)
    (hp : parseOffsetOf exc = some i)
    (hb : byteOffsetToCharOffset text i = some off) :
    get_error_caption text exc =
      exc ++ offsetNote off ++ [':', '\n', '\n']
        ++ md_pre (((newlinesToSpaces text).drop (off + 1 - min 25 off)).take
            (off + 5 - (off + 1 - min 25 off)))
        ++ ['\n']
        ++ md_code (List.replicate (min 25 off - 1) ' ' ++ ['^']) := by
  have hmin : (if off < 25 then off else 25) = min 25 off := by
    rw [Nat.min_def]
    split_ifs <;> omega
  simp only [get_error_caption, hp, hb, hmin]

theorem parseMdStep_default (c : Char) (rest : List Char)
    (h1 : c ≠ '\\') (h2 : c ≠ '*') (h3 : c ≠ '_') (h4 : c ≠ '`') (h5 : c ≠ '[') :
    parseMdStep (c :: rest) = .plainStep c rest := by
  simp only [parseMdStep]
  rw [if_neg h1, if_neg h2, if_neg h3, if_neg h4, if_neg h5]

theorem parseHtmlStep_default (c : Char) (rest : List Char)
    (h1 : c ≠ '&') (h2 : c ≠ '<') :
    parseHtmlStep (c :: rest) = .plainStep c rest := by
  simp only [parseHtmlStep]
  rw [if_neg h1, if_neg h2]

theorem parseHtmlStep_amp (Y : List Char) :
    parseHtmlStep ('&' :: 'a' :: 'm' :: 'p' :: ';' :: Y) = .plainStep '&' Y := by
  simp only [parseHtmlStep]
  rw [if_pos trivial]
  rw [if_pos (show List.take 4 ('a' :: 'm' :: 'p' :: ';' :: Y) =
    ['a', 'm', 'p', ';'] from rfl)]
  rfl

theorem parseHtmlStep_lt (Y : List Char) :
    parseHtmlStep ('&' :: 'l' :: 't' :: ';' :: Y) = .plainStep '<' Y := by
  simp only [parseHtmlStep]
  rw [if_pos trivial]
  rw [show List.take 4 ('l' :: 't' :: ';' :: Y) =
    'l' :: 't' :: ';' :: List.take 1 Y from rfl]
  rw [if_neg (by simp)]
  rw [if_pos (show List.take 3 ('l' :: 't' :: ';' :: Y) = ['l', 't', ';'] from rfl)]
  rfl

theorem parseHtmlStep_gt (Y : List Char) :
    parseHtmlStep ('&' :: 'g' :: 't' :: ';' :: Y) = .plainStep '>' Y := by
  simp only [parseHtmlStep]
  rw [if_pos trivial]
  rw [show List.take 4 ('g' :: 't' :: ';' :: Y) =
    'g' :: 't' :: ';' :: List.take 1 Y from rfl]
  rw [if_neg (by simp)]
  rw [show List.take 3 ('g' :: 't' :: ';' :: Y) =
    'g' :: 't' :: ';' :: List.take 0 Y from rfl]
  rw [if_neg (by simp)]
  rw [if_pos (show 'g' :: 't' :: ';' :: List.take 0 Y = ['g', 't', ';'] from rfl)]
  rfl

theorem fromMarkdown_escape_append (g X : List Char) (hg : '\\' ∉ g) :
    fromMarkdown (escape_md g ++ X) = (fromMarkdown X).map (prependPlain g) := by
  induction g with
  | nil =>
      simp only [escape_md, List.nil_append]
      have h : prependPlain [] = id := funext prependPlain_nil
      simp [h]
  | cons c g' ih =>
      have hg' : '\\' ∉ g' := fun h => hg (List.mem_cons_of_mem _ h)
      have hc : c ≠ '\\' := fun h => hg (by simp [h])
      have ih' := ih hg'
      by_cases hs : c ∈ LIST_MD_SYMBOLS
      · have hshape : escape_md (c :: g') ++ X = '\\' :: c :: (escape_md g' ++ X) := by
          simp [escape_md, hs]
        rw [hshape]
        rw [fromMarkdown_step_plain ('\\' :: c :: (escape_md g' ++ X)) c
          (escape_md g' ++ X) (by simp [parseMdStep])]
        rw [ih', Option.map_map]
        simp [Function.comp_def, consPlain_prependPlain]
      · have hshape : escape_md (c :: g') ++ X = c :: (escape_md g' ++ X) := by
          simp [escape_md, hs]
        have h2 : c ≠ '*' := fun h => hs (by simp [h, LIST_MD_SYMBOLS])
        have h3 : c ≠ '_' := fun h => hs (by simp [h, LIST_MD_SYMBOLS])
        have h4 : c ≠ '`' := fun h => hs (by simp [h, LIST_MD_SYMBOLS])
        have h5 : c ≠ '[' := fun h => hs (by simp [h, LIST_MD_SYMBOLS])
        rw [hshape]
        rw [fromMarkdown_step_plain (c :: (escape_md g' ++ X)) c (escape_md g' ++ X)
          (parseMdStep_default c _ hc h2 h3 h4 h5)]
        rw [ih', Option.map_map]
        simp [Function.comp_def, consPlain_prependPlain]

theorem fromHtml_quote_append (g X : List Char) :
    fromHtml (quote_html g ++ X) = (fromHtml X).map (prependPlain g) := by
  induction g with
  | nil =>
      simp only [quote_html, List.nil_append]
      have h : prependPlain [] = id := funext prependPlain_nil
      simp [h]
  | cons c g' ih =>
      by_cases h1 : c = '&'
      · subst h1
        have hshape : quote_html ('&' :: g') ++ X =
            '&' :: 'a' :: 'm' :: 'p' :: ';' :: (quote_html g' ++ X) := by
          simp [quote_html, htmlQuoteChar]
        rw [hshape]
        rw [fromHtml_step_plain _ '&' (quote_html g' ++ X)
          (parseHtmlStep_amp (quote_html g' ++ X))]
        rw [ih, Option.map_map]
        simp [Function.comp_def, consPlain_prependPlain]
      · by_cases h2 : c = '<'
        · subst h2
          have hshape : quote_html ('<' :: g') ++ X =
              '&' :: 'l' :: 't' :: ';' :: (quote_html g' ++ X) := by
            simp [quote_html, htmlQuoteChar]
          rw [hshape]
          rw [fromHtml_step_plain _ '<' (quote_html g' ++ X)
            (parseHtmlStep_lt (quote_html g' ++ X))]
          rw [ih, Option.map_map]
          simp [Function.comp_def, consPlain_prependPlain]
        · by_cases h3 : c = '>'
          · subst h3
            have hshape : quote_html ('>' :: g') ++ X =
                '&' :: 'g' :: 't' :: ';' :: (quote_html g' ++ X) := by
              simp [quote_html, htmlQuoteChar]
            rw [hshape]
            rw [fromHtml_step_plain _ '>' (quote_html g' ++ X)
              (parseHtmlStep_gt (quote_html g' ++ X))]
            rw [ih, Option.map_map]
            simp [Function.comp_def, consPlain_prependPlain]
          · have hshape : quote_html (c :: g') ++ X = c :: (quote_html g' ++ X) := by
              simp [quote_html, htmlQuoteChar, h1, h2, h3]
            rw [hshape]
            rw [fromHtml_step_plain _ c (quote_html g' ++ X)
              (parseHtmlStep_default c _ h1 h2)]
            rw [ih, Option.map_map]
            simp [Function.comp_def, consPlain_prependPlain]

theorem closeStep_append (k : AnnKind) (p0 : Char) (ptail content X : List Char)
    (hni : p0 ∉ content) :
    closeStep k (p0 :: ptail) (content ++ (p0 :: ptail) ++ X) = .annStep k content none X := by
  unfold closeStep
  rw [splitAtSeq_append p0 ptail content X hni]

theorem parseMdStep_bold (content X : List Char) (hni : '*' ∉ content) :
    parseMdStep ('*' :: (content ++ ['*'] ++ X)) = .annStep .bold content none X := by
  rw [show parseMdStep ('*' :: (content ++ ['*'] ++ X)) =
    closeStep .bold ['*'] (content ++ ['*'] ++ X) from rfl]
  exact closeStep_append .bold '*' [] content X hni

theorem parseMdStep_italic (content X : List Char) (hni : '_' ∉ content) :
    parseMdStep ('_' :: (content ++ ['_'] ++ X)) = .annStep .italic content none X := by
  rw [show parseMdStep ('_' :: (content ++ ['_'] ++ X)) =
    closeStep .italic ['_'] (content ++ ['_'] ++ X) from rfl]
  exact closeStep_append .italic '_' [] content X hni

theorem parseMdStep_code (c0 : Char) (t X : List Char) (hc0 : c0 ≠ '`')
    (hni : '`' ∉ c0 :: t) :
    parseMdStep ('`' :: ((c0 :: t) ++ ['`'] ++ X)) = .annStep .code (c0 :: t) none X := by
  rw [show parseMdStep ('`' :: ((c0 :: t) ++ ['`'] ++ X)) =
    (if ((c0 :: t) ++ ['`'] ++ X).take 3 = ['`', '`', '\n'] then
      closeStep .codeBlock ['`', '`', '`'] (((c0 :: t) ++ ['`'] ++ X).drop 3)
    else closeStep .code ['`'] ((c0 :: t) ++ ['`'] ++ X)) from rfl]
  rw [show ((c0 :: t) ++ ['`'] ++ X).take 3 = c0 :: ((t ++ ['`'] ++ X).take 2) from rfl]
  rw [if_neg (by simp [hc0])]
  exact closeStep_append .code '`' [] (c0 :: t) X hni

theorem parseMdStep_codeBlock (content X : List Char) (hni : '`' ∉ content) :
    parseMdStep ('`' :: '`' :: '`' :: '\n' :: (content ++ ['`', '`', '`'] ++ X)) =
      .annStep .codeBlock content none X := by
  rw [show parseMdStep ('`' :: '`' :: '`' :: '\n' :: (content ++ ['`', '`', '`'] ++ X)) =
    closeStep .codeBlock ['`', '`', '`'] (content ++ ['`', '`', '`'] ++ X) from rfl]
  exact closeStep_append .codeBlock '`' ['`', '`'] content X hni

theorem parseMdStep_link (content url X : List Char) (hc : ']' ∉ content)
    (hu : ')' ∉ url) (hpre : TG_USER_PREFIX.isPrefixOf url = false) :
    parseMdStep ('[' :: (content ++ [']'] ++ ('(' :: (url ++ [')'] ++ X)))) =
      .annStep .link content (some url) X := by
  rw [show parseMdStep ('[' :: (content ++ [']'] ++ ('(' :: (url ++ [')'] ++ X)))) =
    linkStepParts (parseLinkParts (content ++ [']'] ++ ('(' :: (url ++ [')'] ++ X))))
    from rfl]
  rw [parseLinkParts_append content url X hc hu]
  simp [linkStepParts, linkStepOf, hpre]

theorem parseMdStep_mention (content uid X : List Char) (hc : ']' ∉ content)
    (hu : ')' ∉ uid) :
    parseMdStep ('[' :: (content ++ [']'] ++
        ('(' :: ((TG_USER_PREFIX ++ uid) ++ [')'] ++ X)))) =
      .annStep .mention content (some uid) X := by
  rw [show parseMdStep ('[' :: (content ++ [']'] ++
      ('(' :: ((TG_USER_PREFIX ++ uid) ++ [')'] ++ X)))) =
    linkStepParts (parseLinkParts (content ++ [']'] ++
      ('(' :: ((TG_USER_PREFIX ++ uid) ++ [')'] ++ X)))) from rfl]
  rw [parseLinkParts_append content (TG_USER_PREFIX ++ uid) X hc
    (by simp [TG_USER_PREFIX, List.mem_append, hu])]
  simp [linkStepParts, linkStepOf, isPrefixOf_append_self, List.drop_left]

theorem parseHtmlStep_bold (content X : List Char) (hni : '<' ∉ content) :
    parseHtmlStep ('<' :: 'b' :: '>' :: (content ++ ['<', '/', 'b', '>'] ++ X)) =
      .annStep .bold content none X := by
  rw [show parseHtmlStep ('<' :: 'b' :: '>' :: (content ++ ['<', '/', 'b', '>'] ++ X)) =
    closeStep .bold ['<', '/', 'b', '>'] (content ++ ['<', '/', 'b', '>'] ++ X) from rfl]
  exact closeStep_append .bold '<' ['/', 'b', '>'] content X hni

theorem parseHtmlStep_italic (content X : List Char) (hni : '<' ∉ content) :
    parseHtmlStep ('<' :: 'i' :: '>' :: (content ++ ['<', '/', 'i', '>'] ++ X)) =
      .annStep .italic content none X := by
  rw [show parseHtmlStep ('<' :: 'i' :: '>' :: (content ++ ['<', '/', 'i', '>'] ++ X)) =
    closeStep .italic ['<', '/', 'i', '>'] (content ++ ['<', '/', 'i', '>'] ++ X) from rfl]
  exact closeStep_append .italic '<' ['/', 'i', '>'] content X hni

theorem parseHtmlStep_code (content X : List Char) (hni : '<' ∉ content) :
    parseHtmlStep ('<' :: 'c' :: 'o' :: 'd' :: 'e' :: '>' ::
        (content ++ ['<', '/', 'c', 'o', 'd', 'e', '>'] ++ X)) =
      .annStep .code content none X := by
  rw [show parseHtmlStep ('<' :: 'c' :: 'o' :: 'd' :: 'e' :: '>' ::
      (content ++ ['<', '/', 'c', 'o', 'd', 'e', '>'] ++ X)) =
    closeStep .code ['<', '/', 'c', 'o', 'd', 'e', '>']
      (content ++ ['<', '/', 'c', 'o', 'd', 'e', '>'] ++ X) from rfl]
  exact closeStep_append .code '<' ['/', 'c', 'o', 'd', 'e', '>'] content X hni

theorem parseHtmlStep_codeBlock (content X : List Char) (hni : '<' ∉ content) :
    parseHtmlStep ('<' :: 'p' :: 'r' :: 'e' :: '>' ::
        (content ++ ['<', '/', 'p', 'r', 'e', '>'] ++ X)) =
      .annStep .codeBlock content none X := by
  rw [show parseHtmlStep ('<' :: 'p' :: 'r' :: 'e' :: '>' ::
      (content ++ ['<', '/', 'p', 'r', 'e', '>'] ++ X)) =
    closeStep .codeBlock ['<', '/', 'p', 'r', 'e', '>']
      (content ++ ['<', '/', 'p', 'r', 'e', '>'] ++ X) from rfl]
  exact closeStep_append .codeBlock '<' ['/', 'p', 'r', 'e', '>'] content X hni

theorem parseHtmlStep_link (url content X : List Char) (hu : '"' ∉ url)
    (hc : '<' ∉ content) (hpre : TG_USER_PREFIX.isPrefixOf url = false) :
    parseHtmlStep ('<' :: 'a' :: ' ' :: 'h' :: 'r' :: 'e' :: 'f' :: '=' :: '"' ::
        (url ++ ['"', '>'] ++ (content ++ ['<', '/', 'a', '>'] ++ X))) =
      .annStep .link content (some url) X := by
  rw [show parseHtmlStep ('<' :: 'a' :: ' ' :: 'h' :: 'r' :: 'e' :: 'f' :: '=' :: '"' ::
      (url ++ ['"', '>'] ++ (content ++ ['<', '/', 'a', '>'] ++ X))) =
    aStepParts (parseATagParts (url ++ ['"', '>'] ++ (content ++ ['<', '/', 'a', '>'] ++ X)))
    from rfl]
  rw [parseATagParts_append url content X hu hc]
  simp [aStepParts, linkStepOf, hpre]

theorem parseHtmlStep_mention (uid content X : List Char) (hu : '"' ∉ uid)
    (hc : '<' ∉ content) :
    parseHtmlStep ('<' :: 'a' :: ' ' :: 'h' :: 'r' :: 'e' :: 'f' :: '=' :: '"' ::
        ((TG_USER_PREFIX ++ uid) ++ ['"', '>'] ++ (content ++ ['<', '/', 'a', '>'] ++ X))) =
      .annStep .mention content (some uid) X := by
  rw [show parseHtmlStep ('<' :: 'a' :: ' ' :: 'h' :: 'r' :: 'e' :: 'f' :: '=' :: '"' ::
      ((TG_USER_PREFIX ++ uid) ++ ['"', '>'] ++ (content ++ ['<', '/', 'a', '>'] ++ X))) =
    aStepParts (parseATagParts ((TG_USER_PREFIX ++ uid) ++ ['"', '>'] ++
      (content ++ ['<', '/', 'a', '>'] ++ X))) from rfl]
  rw [parseATagParts_append (TG_USER_PREFIX ++ uid) content X
    (by simp [TG_USER_PREFIX, List.mem_append, hu]) hc]
  simp [aStepParts, linkStepOf, isPrefixOf_append_self, List.drop_left]

/-- Well-formedness of one markdown-serializable annotation body (spec §4.1 and
§8 "well-formed annotations", sharpened to what the markdown dialect can
round-trip): the content must not contain the annotation's own closing
delimiter, inline code must be nonempty (so it is not mistaken for a fence),
and the payload is present exactly for links and mentions, with a
delimiter-free target that is not itself a mention URL. -/
def annContentOkMd (k : AnnKind) (content : List Char)
    (payload : Option (List Char)) : Bool :=
  match k, payload with
  | .bold, none => decide ('*' ∉ content)
  | .italic, none => decide ('_' ∉ content)
  | .code, none => decide (content ≠ [] ∧ '`' ∉ content)
  | .codeBlock, none => decide ('`' ∉ content)
  | .link, some url =>
      decide (']' ∉ content ∧ ')' ∉ url) && !(TG_USER_PREFIX.isPrefixOf url)
  | .mention, some uid => decide (']' ∉ content ∧ ')' ∉ uid)
  | _, _ => false

/-- Well-formedness of one HTML-serializable annotation body: the content must
not open a new tag, and a link/mention payload must not close the `href`
attribute early. -/
def annContentOkHtml (k : AnnKind) (content : List Char)
    (payload : Option (List Char)) : Bool :=
  match k, payload with
  | .bold, none => decide ('<' ∉ content)
  | .italic, none => decide ('<' ∉ content)
  | .code, none => decide ('<' ∉ content)
  | .codeBlock, none => decide ('<' ∉ content)
  | .link, some url =>
      decide ('"' ∉ url ∧ '<' ∉ content) && !(TG_USER_PREFIX.isPrefixOf url)
  | .mention, some uid => decide ('"' ∉ uid ∧ '<' ∉ content)
  | _, _ => false

/-- Well-formed annotation lists over `plain`, starting at codepoint `cursor`
(spec §3: ranges in codepoint offsets, here in serialization order and
non-overlapping): each range satisfies `cursor ≤ start ≤ stop ≤ length`, its
body satisfies `contentOk`, and the rest is well-formed from its `stop`. -/
def annsWfFrom (contentOk : AnnKind → List Char → Option (List Char) → Bool)
    (plain : List Char) (cursor : Nat) : List Ann → Bool
  | [] => true
  | a :: rest =>
      decide (cursor ≤ a.start ∧ a.start ≤ a.stop ∧ a.stop ≤ plain.length) &&
      contentOk a.kind ((plain.drop a.start).take (a.stop - a.start)) a.payload &&
      annsWfFrom contentOk plain a.stop rest

theorem drop_take_drop (l : List Char) (m n : Nat) (hmn : m ≤ n) :
    (l.drop m).take (n - m) ++ l.drop n = l.drop m := by
  have h1 : l.drop n = (l.drop m).drop (n - m) := by
    rw [List.drop_drop]
    congr 1
    omega
  rw [h1, List.take_append_drop]

theorem length_take_drop (l : List Char) (m n : Nat) (hmn : m ≤ n)
    (hn : n ≤ l.length) :
    ((l.drop m).take (n - m)).length = n - m := by
  simp only [List.length_take, List.length_drop]
  omega

theorem map_eq_of_forall_eq (l : List Ann) (f g : Ann → Ann)
    (h : ∀ b ∈ l, f b = g b) : l.map f = l.map g := by
  induction l with
  | nil => rfl
  | cons x t ih =>
      simp only [List.map_cons]
      rw [h x (List.mem_cons_self x t), ih (fun b hb => h b (List.mem_cons_of_mem x hb))]

theorem map_unshiftAnn_zero (l : List Ann) : l.map (unshiftAnn 0) = l := by
  induction l with
  | nil => rfl
  | cons a t ih => simp [unshiftAnn, ih]

theorem annsWfFrom_mem (contentOk : AnnKind → List Char → Option (List Char) → Bool)
    (plain : List Char) (anns : List Ann) :
    ∀ cursor : Nat, annsWfFrom contentOk plain cursor anns = true →
    ∀ b ∈ anns, cursor ≤ b.start ∧ b.start ≤ b.stop := by
  induction anns with
  | nil =>
      intro cursor _ b hb
      simp at hb
  | cons a rest ih =>
      intro cursor hwf b hb
      simp only [annsWfFrom, Bool.and_eq_true, decide_eq_true_eq] at hwf
      obtain ⟨⟨⟨h1, h2, h3⟩, _⟩, hrest⟩ := hwf
      rcases List.mem_cons.mp hb with hb | hb
      · subst hb
        exact ⟨h1, h2⟩
      · have := ih a.stop hrest b hb
        exact ⟨le_trans (le_trans h1 h2) this.1, this.2⟩

theorem fromMarkdown_wrap_append (k : AnnKind) (content : List Char)
    (payload : Option (List Char)) (X : List Char)
    (hok : annContentOkMd k content payload = true) :
    fromMarkdown (wrapMd k content payload ++ X) =
      (fromMarkdown X).map (consAnn k content payload) := by
  cases k with
  | bold =>
      cases payload with
      | some p => simp [annContentOkMd] at hok
      | none =>
          simp only [annContentOkMd, decide_eq_true_eq] at hok
          rw [show wrapMd .bold content none ++ X = '*' :: (content ++ ['*'] ++ X) from rfl]
          exact fromMarkdown_step_ann _ .bold content none X (parseMdStep_bold content X hok)
  | italic =>
      cases payload with
      | some p => simp [annContentOkMd] at hok
      | none =>
          simp only [annContentOkMd, decide_eq_true_eq] at hok
          rw [show wrapMd .italic content none ++ X = '_' :: (content ++ ['_'] ++ X) from rfl]
          exact fromMarkdown_step_ann _ .italic content none X (parseMdStep_italic content X hok)
  | code =>
      cases payload with
      | some p => simp [annContentOkMd] at hok
      | none =>
          simp only [annContentOkMd, decide_eq_true_eq] at hok
          obtain ⟨hne, hni⟩ := hok
          cases content with
          | nil => exact absurd rfl hne
          | cons c0 t =>
              have hc0 : c0 ≠ '`' := fun h => hni (by simp [h])
              rw [show wrapMd .code (c0 :: t) none ++ X =
                '`' :: ((c0 :: t) ++ ['`'] ++ X) from rfl]
              exact fromMarkdown_step_ann _ .code (c0 :: t) none X
                (parseMdStep_code c0 t X hc0 hni)
  | codeBlock =>
      cases payload with
      | some p => simp [annContentOkMd] at hok
      | none =>
          simp only [annContentOkMd, decide_eq_true_eq] at hok
          rw [show wrapMd .codeBlock content none ++ X =
            '`' :: '`' :: '`' :: '\n' :: (content ++ ['`', '`', '`'] ++ X) from rfl]
          exact fromMarkdown_step_ann _ .codeBlock content none X
            (parseMdStep_codeBlock content X hok)
  | link =>
      cases payload with
      | none => simp [annContentOkMd] at hok
      | some url =>
          simp only [annContentOkMd, Bool.and_eq_true, decide_eq_true_eq,
            Bool.not_eq_true'] at hok
          obtain ⟨⟨hc, hu⟩, hpre⟩ := hok
          have hsh : wrapMd .link content (some url) ++ X =
              '[' :: (content ++ [']'] ++ ('(' :: (url ++ [')'] ++ X))) := by
            simp [wrapMd]
          rw [hsh]
          exact fromMarkdown_step_ann _ .link content (some url) X
            (parseMdStep_link content url X hc hu hpre)
  | mention =>
      cases payload with
      | none => simp [annContentOkMd] at hok
      | some uid =>
          simp only [annContentOkMd, decide_eq_true_eq] at hok
          obtain ⟨hc, hu⟩ := hok
          have hsh : wrapMd .mention content (some uid) ++ X =
              '[' :: (content ++ [']'] ++
                ('(' :: ((TG_USER_PREFIX ++ uid) ++ [')'] ++ X))) := by
            simp [wrapMd, TG_USER_PREFIX]
          rw [hsh]
          exact fromMarkdown_step_ann _ .mention content (some uid) X
            (parseMdStep_mention content uid X hc hu)

theorem fromHtml_wrap_append (k : AnnKind) (content : List Char)
    (payload : Option (List Char)) (X : List Char)
    (hok : annContentOkHtml k content payload = true) :
    fromHtml (wrapHtml k content payload ++ X) =
      (fromHtml X).map (consAnn k content payload) := by
  cases k with
  | bold =>
      cases payload with
      | some p => simp [annContentOkHtml] at hok
      | none =>
          simp only [annContentOkHtml, decide_eq_true_eq] at hok
          rw [show wrapHtml .bold content none ++ X =
            '<' :: 'b' :: '>' :: (content ++ ['<', '/', 'b', '>'] ++ X) from rfl]
          exact fromHtml_step_ann _ .bold content none X (parseHtmlStep_bold content X hok)
  | italic =>
      cases payload with
      | some p => simp [annContentOkHtml] at hok
      | none =>
          simp only [annContentOkHtml, decide_eq_true_eq] at hok
          rw [show wrapHtml .italic content none ++ X =
            '<' :: 'i' :: '>' :: (content ++ ['<', '/', 'i', '>'] ++ X) from rfl]
          exact fromHtml_step_ann _ .italic content none X (parseHtmlStep_italic content X hok)
  | code =>
      cases payload with
      | some p => simp [annContentOkHtml] at hok
      | none =>
          simp only [annContentOkHtml, decide_eq_true_eq] at hok
          rw [show wrapHtml .code content none ++ X =
            '<' :: 'c' :: 'o' :: 'd' :: 'e' :: '>' ::
              (content ++ ['<', '/', 'c', 'o', 'd', 'e', '>'] ++ X) from rfl]
          exact fromHtml_step_ann _ .code content none X (parseHtmlStep_code content X hok)
  | codeBlock =>
      cases payload with
      | some p => simp [annContentOkHtml] at hok
      | none =>
          simp only [annContentOkHtml, decide_eq_true_eq] at hok
          rw [show wrapHtml .codeBlock content none ++ X =
            '<' :: 'p' :: 'r' :: 'e' :: '>' ::
              (content ++ ['<', '/', 'p', 'r', 'e', '>'] ++ X) from rfl]
          exact fromHtml_step_ann _ .codeBlock content none X
            (parseHtmlStep_codeBlock content X hok)
  | link =>
      cases payload with
      | none => simp [annContentOkHtml] at hok
      | some url =>
          simp only [annContentOkHtml, Bool.and_eq_true, decide_eq_true_eq,
            Bool.not_eq_true'] at hok
          obtain ⟨⟨hu, hc⟩, hpre⟩ := hok
          have hsh : wrapHtml .link content (some url) ++ X =
              '<' :: 'a' :: ' ' :: 'h' :: 'r' :: 'e' :: 'f' :: '=' :: '"' ::
                (url ++ ['"', '>'] ++ (content ++ ['<', '/', 'a', '>'] ++ X)) := by
            simp [wrapHtml]
          rw [hsh]
          exact fromHtml_step_ann _ .link content (some url) X
            (parseHtmlStep_link url content X hu hc hpre)
  | mention =>
      cases payload with
      | none => simp [annContentOkHtml] at hok
      | some uid =>
          simp only [annContentOkHtml, decide_eq_true_eq] at hok
          obtain ⟨hu, hc⟩ := hok
          have hsh : wrapHtml .mention content (some uid) ++ X =
              '<' :: 'a' :: ' ' :: 'h' :: 'r' :: 'e' :: 'f' :: '=' :: '"' ::
                ((TG_USER_PREFIX ++ uid) ++ ['"', '>'] ++
                  (content ++ ['<', '/', 'a', '>'] ++ X)) := by
            simp [wrapHtml, TG_USER_PREFIX]
          rw [hsh]
          exact fromHtml_step_ann _ .mention content (some uid) X
            (parseHtmlStep_mention uid content X hu hc)

theorem fromMarkdown_render (plain : List Char) (hplain : '\\' ∉ plain)
    (anns : List Ann) :
    ∀ cursor : Nat, annsWfFrom annContentOkMd plain cursor anns = true →
    fromMarkdown (renderMdFrom plain cursor anns) =
      some ⟨plain.drop cursor, anns.map (unshiftAnn cursor)⟩ := by
  induction anns with
  | nil =>
      intro cursor _
      have hgap : '\\' ∉ plain.drop cursor := fun h => hplain (List.mem_of_mem_drop h)
      have hesc := fromMarkdown_escape_append (plain.drop cursor) [] hgap
      rw [List.append_nil] at hesc
      rw [show renderMdFrom plain cursor [] = escape_md (plain.drop cursor) from rfl]
      rw [hesc, fromMarkdown_nil]
      simp [prependPlain]
  | cons a rest ih =>
      intro cursor hwf
      simp only [annsWfFrom, Bool.and_eq_true, decide_eq_true_eq] at hwf
      obtain ⟨⟨⟨h1, h2, h3⟩, hok⟩, hwfrest⟩ := hwf
      have hgapmem : '\\' ∉ (plain.drop cursor).take (a.start - cursor) :=
        fun h => hplain (List.mem_of_mem_drop (List.mem_of_mem_take h))
      have hglen : ((plain.drop cursor).take (a.start - cursor)).length = a.start - cursor :=
        length_take_drop plain cursor a.start h1 (le_trans h2 h3)
      have hclen : ((plain.drop a.start).take (a.stop - a.start)).length =
          a.stop - a.start :=
        length_take_drop plain a.start a.stop h2 h3
      have hshape : renderMdFrom plain cursor (a :: rest) =
          escape_md ((plain.drop cursor).take (a.start - cursor)) ++
            (wrapMd a.kind ((plain.drop a.start).take (a.stop - a.start)) a.payload ++
              renderMdFrom plain a.stop rest) := by
        rw [show renderMdFrom plain cursor (a :: rest) =
            escape_md ((plain.drop cursor).take (a.start - cursor)) ++
              wrapMd a.kind ((plain.drop a.start).take (a.stop - a.start)) a.payload ++
              renderMdFrom plain a.stop rest from rfl]
        rw [List.append_assoc]
      rw [hshape]
      rw [fromMarkdown_escape_append _ _ hgapmem]
      rw [fromMarkdown_wrap_append a.kind _ a.payload _ hok]
      rw [ih a.stop hwfrest]
      show some (prependPlain ((plain.drop cursor).take (a.start - cursor))
        (consAnn a.kind ((plain.drop a.start).take (a.stop - a.start)) a.payload
          ⟨plain.drop a.stop, rest.map (unshiftAnn a.stop)⟩)) =
        some ⟨plain.drop cursor, (a :: rest).map (unshiftAnn cursor)⟩
      congr 1
      simp only [prependPlain, consAnn, List.map_cons, List.map_map, RichText.mk.injEq,
        List.cons.injEq]
      refine ⟨?_, ?_, ?_⟩
      · rw [drop_take_drop plain a.start a.stop h2, drop_take_drop plain cursor a.start h1]
      · simp only [shiftAnn, unshiftAnn, hglen, hclen, Ann.mk.injEq, true_and, and_true]
        omega
      · apply map_eq_of_forall_eq
        intro b hb
        obtain ⟨hb1, hb2⟩ := annsWfFrom_mem annContentOkMd plain rest a.stop hwfrest b hb
        simp only [Function.comp_def, shiftAnn, unshiftAnn, hglen, hclen, Ann.mk.injEq,
          true_and, and_true]
        omega

theorem fromHtml_render (plain : List Char) (anns : List Ann) :
    ∀ cursor : Nat, annsWfFrom annContentOkHtml plain cursor anns = true →
    fromHtml (renderHtmlFrom plain cursor anns) =
      some ⟨plain.drop cursor, anns.map (unshiftAnn cursor)⟩ := by
  induction anns with
  | nil =>
      intro cursor _
      have hq := fromHtml_quote_append (plain.drop cursor) []
      rw [List.append_nil] at hq
      rw [show renderHtmlFrom plain cursor [] = quote_html (plain.drop cursor) from rfl]
      rw [hq, fromHtml_nil]
      simp [prependPlain]
  | cons a rest ih =>
      intro cursor hwf
      simp only [annsWfFrom, Bool.and_eq_true, decide_eq_true_eq] at hwf
      obtain ⟨⟨⟨h1, h2, h3⟩, hok⟩, hwfrest⟩ := hwf
      have hglen : ((plain.drop cursor).take (a.start - cursor)).length = a.start - cursor :=
        length_take_drop plain cursor a.start h1 (le_trans h2 h3)
      have hclen : ((plain.drop a.start).take (a.stop - a.start)).length =
          a.stop - a.start :=
        length_take_drop plain a.start a.stop h2 h3
      have hshape : renderHtmlFrom plain cursor (a :: rest) =
          quote_html ((plain.drop cursor).take (a.start - cursor)) ++
            (wrapHtml a.kind ((plain.drop a.start).take (a.stop - a.start)) a.payload ++
              renderHtmlFrom plain a.stop rest) := by
        rw [show renderHtmlFrom plain cursor (a :: rest) =
            quote_html ((plain.drop cursor).take (a.start - cursor)) ++
              wrapHtml a.kind ((plain.drop a.start).take (a.stop - a.start)) a.payload ++
              renderHtmlFrom plain a.stop rest from rfl]
        rw [List.append_assoc]
      rw [hshape]
      rw [fromHtml_quote_append]
      rw [fromHtml_wrap_append a.kind _ a.payload _ hok]
      rw [ih a.stop hwfrest]
      show some (prependPlain ((plain.drop cursor).take (a.start - cursor))
        (consAnn a.kind ((plain.drop a.start).take (a.stop - a.start)) a.payload
          ⟨plain.drop a.stop, rest.map (unshiftAnn a.stop)⟩)) =
        some ⟨plain.drop cursor, (a :: rest).map (unshiftAnn cursor)⟩
      congr 1
      simp only [prependPlain, consAnn, List.map_cons, List.map_map, RichText.mk.injEq,
        List.cons.injEq]
      refine ⟨?_, ?_, ?_⟩
      · rw [drop_take_drop plain a.start a.stop h2, drop_take_drop plain cursor a.start h1]
      · simp only [shiftAnn, unshiftAnn, hglen, hclen, Ann.mk.injEq, true_and, and_true]
        omega
      · apply map_eq_of_forall_eq
        intro b hb
        obtain ⟨hb1, hb2⟩ := annsWfFrom_mem annContentOkHtml plain rest a.stop hwfrest b hb
        simp only [Function.comp_def, shiftAnn, unshiftAnn, hglen, hclen, Ann.mk.injEq,
          true_and, and_true]
        omega

theorem fromMarkdown_roundTrip (r : RichText) (hmd : '\\' ∉ r.plain)
    (h1 : annsWfFrom annContentOkMd r.plain 0 r.anns = true) :
    fromMarkdown (toMarkdown r) = some r := by
  have h := fromMarkdown_render r.plain hmd r.anns 0 h1
  simp only [List.drop_zero, map_unshiftAnn_zero] at h
  exact h

theorem fromHtml_roundTrip (r : RichText)
    (h2 : annsWfFrom annContentOkHtml r.plain 0 r.anns = true) :
    fromHtml (toHtml r) = some r := by
  have h := fromHtml_render r.plain r.anns 0 h2
  simp only [List.drop_zero, map_unshiftAnn_zero] at h
  exact h

/-! ### Claim theorems: detection and dispatch -/

/-- C1: for every message whose plain text is a string, format detection
returns `None` exactly when `entityEscapes > max(htmlEscapes, mdEscapes)`;
otherwise `Html` exactly when `htmlEscapes > mdEscapes`; otherwise (every tie
included) `Markdown` — the three counts being the backslash/ampersand
differences of bot.py lines 106-115. -/
theorem detect_formatting_branches (m : Message) :
    (detect_message_text_formatting m = none ↔
      escaped_with_entities m > max (escaped_html m) (escaped_md m)) ∧
    (detect_message_text_formatting m = some ['h', 't', 'm', 'l'] ↔
      (escaped_with_entities m ≤ max (escaped_html m) (escaped_md m) ∧
        escaped_html m > escaped_md m)) ∧
    (detect_message_text_formatting m = some ['m', 'a', 'r', 'k', 'd', 'o', 'w', 'n'] ↔
      (escaped_with_entities m ≤ max (escaped_html m) (escaped_md m) ∧
        escaped_html m ≤ escaped_md m)) := by
  unfold detect_message_text_formatting
  split_ifs with h1 h2 <;>
    refine ⟨?_, ?_, ?_⟩ <;> constructor <;> intro h <;> simp_all <;> omega

/-- C9: format detection is total — it returns exactly one of `'markdown'`,
`'html'` or `None`, with no other outcome (and, being a total function of its
input, never raises or reports ambiguity). -/
theorem detect_formatting_total (m : Message) :
    detect_message_text_formatting m = some ['m', 'a', 'r', 'k', 'd', 'o', 'w', 'n'] ∨
    detect_message_text_formatting m = some ['h', 't', 'm', 'l'] ∨
    detect_message_text_formatting m = none := by
  unfold detect_message_text_formatting
  split_ifs <;> simp

/-- C10: `get_send_method` returns `None` exactly when it receives no keyword
arguments; with at least one keyword argument it returns the send method
pre-bound to the positional arguments and the acceptable keyword arguments. -/
theorem get_send_method_none_or_bound (acceptable : List String) (args : List α)
    (kwargs : List (String × β)) :
    (get_send_method acceptable args kwargs = none ↔ kwargs = []) ∧
    (kwargs ≠ [] →
      get_send_method acceptable args kwargs =
        some (args, kwargs.filter (fun kv => acceptable.contains kv.1))) := by
  cases kwargs <;> simp [get_send_method]

/-- Witness for C10 at concrete inputs: a call with no kwargs yields `None`;
a call with kwargs yields the bound pair with the unacceptable kwarg dropped. -/
theorem get_send_method_none_or_bound_witness :
    get_send_method ["text"] ([] : List Nat) ([] : List (String × Nat)) = none ∧
    get_send_method ["text"] ([] : List Nat) [("text", (1 : Nat)), ("junk", 2)] =
      some ([], [("text", 1)]) := by
  constructor
  · exact (get_send_method_none_or_bound ["text"] [] []).1.mpr rfl
  · have h := (get_send_method_none_or_bound ["text"] ([] : List Nat)
      [("text", (1 : Nat)), ("junk", 2)]).2 (by decide)
    simpa using h

/-! ### Claim theorems: error locator -/

/-- C2: when the parse-error description carries a byte offset that lies on a
UTF-8 character boundary of the text (the byte length of its first `k`
codepoints), the error locator translates it to the codepoint offset `k` — the
decoded length of that byte prefix — and reports `k` in its appended
`(chars offset …)` note. -/
theorem error_locator_codepoint_translation (text exc : List Char) (k : Nat)
    (hk : k ≤ text.length)
    (hparse : parseOffsetOf exc = some (utf8Len (text.take k) : Int)) :
    byteOffsetToCharOffset text (utf8Len (text.take k) : Int) = some k ∧
    ∃ tail, get_error_caption text exc = exc ++ offsetNote k ++ tail := by
  have hb := byteOffsetToCharOffset_boundary text k hk
  refine ⟨hb, ?_⟩
  refine ⟨[':', '\n', '\n']
      ++ md_pre (((newlinesToSpaces text).drop (k + 1 - min 25 k)).take
          (k + 5 - (k + 1 - min 25 k)))
      ++ ['\n']
      ++ md_code (List.replicate (min 25 k - 1) ' ' ++ ['^']), ?_⟩
  rw [get_error_caption_success text exc _ k hparse hb]
  simp [List.append_assoc]

/-- Witness for C2: in `['h', 'é', 'l', 'l', 'o']` the first three codepoints
occupy four bytes (`é` is two bytes), and byte offset 4 is translated to
codepoint offset 3. -/
theorem error_locator_codepoint_translation_witness :
    byteOffsetToCharOffset ['h', 'é', 'l', 'l', 'o']
        (utf8Len (['h', 'é', 'l', 'l', 'o'].take 3) : Int) = some 3 ∧
    ∃ tail, get_error_caption ['h', 'é', 'l', 'l', 'o']
        ['o', 'f', 'f', 's', 'e', 't', ' ', '4'] =
      ['o', 'f', 'f', 's', 'e', 't', ' ', '4'] ++ offsetNote 3 ++ tail :=
  error_locator_codepoint_translation ['h', 'é', 'l', 'l', 'o']
    ['o', 'f', 'f', 's', 'e', 't', ' ', '4'] 3 (by decide) (by decide)

/-- C3: whenever no numeric offset can be parsed out of the error description,
or the byte prefix at the parsed offset cannot be decoded, `get_error_caption`
returns the error description unchanged (the embedding is a total function, so
no exception escapes either path). -/
theorem error_caption_unchanged_on_failure (bad exc : List Char)
    (h : parseOffsetOf exc = none ∨
      ∃ i, parseOffsetOf exc = some i ∧ byteOffsetToCharOffset bad i = none) :
    get_error_caption bad exc = exc := by
  rcases h with h | ⟨i, hi, hd⟩
  · simp [get_error_caption, h]
  · simp [get_error_caption, hi, hd]

/-- Witness for C3: a description with no offset is returned unchanged, and a
description whose byte offset cuts the two-byte `é` in half is returned
unchanged. -/
theorem error_caption_unchanged_on_failure_witness :
    get_error_caption ['a', 'b'] ['n', 'o', 'p', 'e'] = ['n', 'o', 'p', 'e'] ∧
    get_error_caption ['h', 'é', 'l'] ['o', 'f', 'f', 's', 'e', 't', ' ', '2'] =
      ['o', 'f', 'f', 's', 'e', 't', ' ', '2'] := by
  constructor
  · exact error_caption_unchanged_on_failure _ _ (Or.inl (by decide))
  · exact error_caption_unchanged_on_failure _ _ (Or.inr ⟨2, by decide, by decide⟩)

/-- The caption exactly as claim C4 words it: identical to `get_error_caption`
except that the excerpt is taken from index `offset - contextWindow`, where the
source (bot.py lines 87-88, `start = bad_char - chars_before` with
`bad_char = offset + 1`) takes it from `offset - contextWindow + 1`.  Stated
from the claim's words only to be compared against the source behaviour. -/
def claimedErrorCaption (bad_text exc_message : List Char) : List Char :=
  match parseOffsetOf exc_message with
  | none => exc_message
  | some byteOff =>
      match byteOffsetToCharOffset bad_text byteOff with
      | none => exc_message
      | some off =>
          let chars_before := if off < 25 then off else 25
          let start := off - chars_before
          let bad_line := ((newlinesToSpaces bad_text).drop start).take (off + 5 - start)
          let pointer_line := List.replicate (chars_before - 1) ' ' ++ ['^']
          exc_message ++ offsetNote off
            ++ [':', '\n', '\n'] ++ md_pre bad_line ++ ['\n'] ++ md_code pointer_line

/-- Counterexample to C4 as stated: for text `"abcdefgh"` and description
`"offset 3"` (codepoint offset 3, context window 3) the source's excerpt is
`"bcdefgh"` — it starts at index `offset - contextWindow + 1 = 1` — while the
claim's excerpt would start at index `offset - contextWindow = 0` and read
`"abcdefgh"`, so the two captions differ. -/
theorem error_caption_slice_counterexample :
    get_error_caption ['a', 'b', 'c', 'd', 'e', 'f', 'g', 'h']
        ['o', 'f', 'f', 's', 'e', 't', ' ', '3'] ≠
      claimedErrorCaption ['a', 'b', 'c', 'd', 'e', 'f', 'g', 'h']
        ['o', 'f', 'f', 's', 'e', 't', ' ', '3'] := by
  decide

/-- C4 (amended): for every text and successfully parsed codepoint offset,
with `contextWindow = min(25, offset)`, the excerpt is the newline-flattened
text from index `offset - contextWindow + 1` (not `offset - contextWindow`) to
`offset + 5`, and the pointer line is `contextWindow - 1` spaces followed by a
single caret; whenever the window is non-empty the caret is aligned under the
offending character (excerpt position `contextWindow - 1` holds the character
at codepoint `offset`). -/
theorem error_caption_excerpt_and_pointer (text exc : List Char) (i : Int) (off : Nat)
    (hp : parseOffsetOf exc = some i)
    (hb : byteOffsetToCharOffset text i = some off) :
    get_error_caption text exc =
      exc ++ offsetNote off ++ [':', '\n', '\n']
        ++ md_pre (((newlinesToSpaces text).drop (off + 1 - min 25 off)).take
            (off + 5 - (off + 1 - min 25 off)))
        ++ ['\n']
        ++ md_code (List.replicate (min 25 off - 1) ' ' ++ ['^']) ∧
    (1 ≤ min 25 off →
      (((newlinesToSpaces text).drop (off + 1 - min 25 off)).take
          (off + 5 - (off + 1 - min 25 off))).getD (min 25 off - 1) ' ' =
        (newlinesToSpaces text).getD off ' ') := by
  refine ⟨get_error_caption_success text exc i off hp hb, ?_⟩
  intro hcw
  have h1 : min 25 off ≤ off := Nat.min_le_right _ _
  have hlt : min 25 off - 1 < off + 5 - (off + 1 - min 25 off) := by omega
  have hidx : off + 1 - min 25 off + (min 25 off - 1) = off := by omega
  rw [List.getD_eq_getElem?_getD, List.getD_eq_getElem?_getD,
    List.getElem?_take, if_pos hlt, List.getElem?_drop, hidx]

/-- Witness for the amended C4 at text `"hello *world"`, description
`"offset 6"`: codepoint offset 6, window 6, excerpt `"ello *worl"`, pointer
of five spaces and a caret sitting under the `*`. -/
theorem error_caption_excerpt_and_pointer_witness :
    get_error_caption ['h', 'e', 'l', 'l', 'o', ' ', '*', 'w', 'o', 'r', 'l', 'd']
        ['o', 'f', 'f', 's', 'e', 't', ' ', '6'] =
      ['o', 'f', 'f', 's', 'e', 't', ' ', '6'] ++ offsetNote 6 ++ [':', '\n', '\n']
        ++ md_pre (((newlinesToSpaces
              ['h', 'e', 'l', 'l', 'o', ' ', '*', 'w', 'o', 'r', 'l', 'd']).drop
                (6 + 1 - min 25 6)).take (6 + 5 - (6 + 1 - min 25 6)))
        ++ ['\n']
        ++ md_code (List.replicate (min 25 6 - 1) ' ' ++ ['^']) ∧
    (1 ≤ min 25 6 →
      (((newlinesToSpaces
            ['h', 'e', 'l', 'l', 'o', ' ', '*', 'w', 'o', 'r', 'l', 'd']).drop
              (6 + 1 - min 25 6)).take (6 + 5 - (6 + 1 - min 25 6))).getD
          (min 25 6 - 1) ' ' =
        (newlinesToSpaces
            ['h', 'e', 'l', 'l', 'o', ' ', '*', 'w', 'o', 'r', 'l', 'd']).getD 6 ' ') :=
  error_caption_excerpt_and_pointer
    ['h', 'e', 'l', 'l', 'o', ' ', '*', 'w', 'o', 'r', 'l', 'd']
    ['o', 'f', 'f', 's', 'e', 't', ' ', '6'] 6 6 (by decide) (by decide)

/-- The example text of claim C5. -/
def C5_TEXT : List Char := ['h', 'e', 'l', 'l', 'o', ' ', '*', 'w', 'o', 'r', 'l', 'd']

/-- The example parser diagnostic of claim C5, ending in `offset 6`. -/
def C5_EXC : List Char :=
  "Can't find end of the entity starting at byte offset 6".toList

/-- C5: on the text `"hello *world"` with a diagnostic ending in `offset 6`,
`get_error_caption` appends the `(chars offset 6)` note, the excerpt line
`"ello *worl"` and a pointer line of five spaces and a caret, and the caret
(index 5 of the pointer line) is aligned under the `*`, which sits at
zero-indexed codepoint position 6 of the original text (position 5 of the
excerpt). -/
theorem error_caption_hello_world_example :
    get_error_caption C5_TEXT C5_EXC =
      C5_EXC ++ offsetNote 6 ++ [':', '\n', '\n']
        ++ md_pre ['e', 'l', 'l', 'o', ' ', '*', 'w', 'o', 'r', 'l'] ++ ['\n']
        ++ md_code [' ', ' ', ' ', ' ', ' ', '^'] ∧
    (((newlinesToSpaces C5_TEXT).drop 1).take 10).getD 5 ' ' = '*' ∧
    C5_TEXT.getD 6 ' ' = '*' := by
  decide


/-! ### Claim theorems: serializer round trips and passthrough -/

/-- The witness annotation of claim C6: a code block spanning the whole
two-character text, with content ending in a newline. -/
def C6_A : Ann := ⟨AnnKind.codeBlock, 0, 2, none⟩

/-- The witness RichText of claim C6. -/
def C6_R : RichText := ⟨['a', '\n'], [C6_A]⟩

/-- C6: the patched `MD_SYMBOLS` entry 3 (bot.py lines 59-63) opens a fenced
code block with three backticks and a newline and closes it with a bare
triple backtick, no preceding newline; consequently, for every well-formed
RichText carrying a code-block annotation whose content already ends in a
newline, serializing, parsing and re-serializing — twice — reproduces exactly
the original serialization, so repeated round trips accumulate no blank
lines. -/
theorem code_fence_idempotent (r : RichText) (a : Ann)
    (hmd : '\\' ∉ r.plain)
    (h1 : annsWfFrom annContentOkMd r.plain 0 r.anns = true)
    (ha : a ∈ r.anns) (hk : a.kind = AnnKind.codeBlock)
    (hnl : ((r.plain.drop a.start).take (a.stop - a.start)).getLast? = some '\n') :
    MD_SYMBOLS.getD 3 ([], []) = (['`', '`', '`', '\n'], ['`', '`', '`']) ∧
    (fromMarkdown (toMarkdown r)).map toMarkdown = some (toMarkdown r) ∧
    ((fromMarkdown (toMarkdown r)).map toMarkdown).bind
        (fun s => (fromMarkdown s).map toMarkdown) = some (toMarkdown r) := by
  have hrt := fromMarkdown_roundTrip r hmd h1
  refine ⟨rfl, ?_, ?_⟩
  · rw [hrt]
    rfl
  · show ((fromMarkdown (toMarkdown r)).map toMarkdown).bind
      (fun s => (fromMarkdown s).map toMarkdown) = some (toMarkdown r)
    rw [hrt]
    show (fromMarkdown (toMarkdown r)).map toMarkdown = some (toMarkdown r)
    rw [hrt]
    rfl

theorem code_fence_idempotent_witness :
    ('\\' ∉ C6_R.plain ∧
      annsWfFrom annContentOkMd C6_R.plain 0 C6_R.anns = true ∧
      C6_A ∈ C6_R.anns ∧ C6_A.kind = AnnKind.codeBlock ∧
      ((C6_R.plain.drop C6_A.start).take (C6_A.stop - C6_A.start)).getLast? =
        some '\n') ∧
    (MD_SYMBOLS.getD 3 ([], []) = (['`', '`', '`', '\n'], ['`', '`', '`']) ∧
      (fromMarkdown (toMarkdown C6_R)).map toMarkdown = some (toMarkdown C6_R) ∧
      ((fromMarkdown (toMarkdown C6_R)).map toMarkdown).bind
        (fun s => (fromMarkdown s).map toMarkdown) = some (toMarkdown C6_R)) :=
  ⟨⟨by decide, by decide, by decide, by decide, by decide⟩,
    code_fence_idempotent C6_R C6_A (by decide) (by decide) (by decide) (by decide)
      (by decide)⟩

/-- Modelled from the spec: the two Telegram entity types the plain-URL rule
distinguishes — `url` (a bare URL occurring in the text) and `text_link` (an
explicitly authored hyperlink with a separate target). -/
inductive TgEntityType
  | url
  | text_link
  deriving DecidableEq

/-- Modelled from the spec: a structured Telegram entity over a codepoint
range of the message text; `target` is the URL of a `text_link`. -/
structure TgEntity where
  etype : TgEntityType
  offset : Nat
  length : Nat
  target : Option (List Char)
  deriving DecidableEq

/-- Modelled from the spec: the markdown rendering of one entity's covered
text. `urlPassthrough` models `dont_change_plain_urls` (bot.py lines 54-57):
when it is on, a bare-URL entity no longer matches its renamed type and its
text is passed through unchanged; when it is off, the library wraps the bare
URL as a link to itself. A `text_link` is always rendered as an explicit
`[text](target)` link. -/
def renderEntityMd (urlPassthrough : Bool) (content : List Char)
    (e : TgEntity) : List Char :=
  match e.etype with
  | .url =>
      if urlPassthrough then content
      else ['['] ++ content ++ [']', '('] ++ content ++ [')']
  | .text_link => ['['] ++ content ++ [']', '('] ++ e.target.getD [] ++ [')']

/-- Modelled from the spec: `message.md_text` as the detector probes it under
the two patches (escaping disabled, plain URLs passed through when
`urlPassthrough` is on) — plain gaps are emitted verbatim and each entity's
covered text is rendered by `renderEntityMd`. -/
def md_text_render (urlPassthrough : Bool) (text : List Char) (cursor : Nat) :
    List TgEntity → List Char
  | [] => text.drop cursor
  | e :: rest =>
      (text.drop cursor).take (e.offset - cursor)
        ++ renderEntityMd urlPassthrough ((text.drop e.offset).take e.length) e
        ++ md_text_render urlPassthrough text (e.offset + e.length) rest

/-- The example text of claim C7. -/
def C7_TEXT : List Char :=
  "see http://example.com/x for info".toList

/-- The bare URL inside `C7_TEXT`, at codepoint offset 4, length 20. -/
def C7_URL : List Char := "http://example.com/x".toList

/-- C7: on the text `"see http://example.com/x for info"` with no
annotations, markdown serialization returns the string unchanged — both
`toMarkdown` and the entity rendering emit it verbatim and the escaping pass
adds nothing — and even when Telegram marks the bare URL with a `url` entity
the passthrough rendering still returns the text unchanged (whereas without
the passthrough patch the URL would be wrapped); an explicitly authored
`text_link` over the same range is still wrapped as a markdown link. -/
theorem plain_url_passthrough :
    toMarkdown ⟨C7_TEXT, []⟩ = C7_TEXT ∧
    escape_md C7_TEXT = C7_TEXT ∧
    md_text_render true C7_TEXT 0 [] = C7_TEXT ∧
    md_text_render true C7_TEXT 0 [⟨TgEntityType.url, 4, 20, none⟩] = C7_TEXT ∧
    md_text_render false C7_TEXT 0 [⟨TgEntityType.url, 4, 20, none⟩] ≠ C7_TEXT ∧
    md_text_render true C7_TEXT 0
        [⟨TgEntityType.text_link, 4, 20, some C7_URL⟩] ≠ C7_TEXT := by
  decide

/-- C8 counterexample: the RichText with plain text `"a*b"` and a single bold
annotation over the whole range has well-formed annotation ranges in the
sense of spec §3 (in bounds, ordered — witnessed by the range-only instance
of `annsWfFrom`), yet its markdown serialization `"*a*b*"` does not parse
back to it: the round-trip claim fails without a condition on delimiter
characters occurring inside annotated content. -/
theorem round_trip_counterexample :
    annsWfFrom (fun _ _ _ => true) ['a', '*', 'b'] 0
        [⟨AnnKind.bold, 0, 3, none⟩] = true ∧
    toMarkdown ⟨['a', '*', 'b'], [⟨AnnKind.bold, 0, 3, none⟩]⟩ =
      ['*', 'a', '*', 'b', '*'] ∧
    fromMarkdown (toMarkdown ⟨['a', '*', 'b'], [⟨AnnKind.bold, 0, 3, none⟩]⟩) ≠
      some ⟨['a', '*', 'b'], [⟨AnnKind.bold, 0, 3, none⟩]⟩ := by
  decide

/-- C8 (amended): for every RichText whose plain text is backslash-free and
whose annotations are well-formed with delimiter-free bodies and properly
shaped payloads (`annContentOkMd` for the markdown dialect, `annContentOkHtml`
for the HTML dialect), parsing the markdown serialization and parsing the
HTML serialization both return exactly the original value. -/
theorem round_trip_serialization (r : RichText)
    (hmd : '\\' ∉ r.plain)
    (h1 : annsWfFrom annContentOkMd r.plain 0 r.anns = true)
    (h2 : annsWfFrom annContentOkHtml r.plain 0 r.anns = true) :
    fromMarkdown (toMarkdown r) = some r ∧ fromHtml (toHtml r) = some r :=
  ⟨fromMarkdown_roundTrip r hmd h1, fromHtml_roundTrip r h2⟩

/-- The witness RichText of claim C8: `"hello world"` with a bold annotation
over `hello` and a link annotation over `world`. -/
def C8_R : RichText :=
  ⟨"hello world".toList,
    [⟨AnnKind.bold, 0, 5, none⟩,
     ⟨AnnKind.link, 6, 11, some "http://e.co".toList⟩]⟩

theorem round_trip_serialization_witness :
    ('\\' ∉ C8_R.plain ∧
      annsWfFrom annContentOkMd C8_R.plain 0 C8_R.anns = true ∧
      annsWfFrom annContentOkHtml C8_R.plain 0 C8_R.anns = true) ∧
    (fromMarkdown (toMarkdown C8_R) = some C8_R ∧
      fromHtml (toHtml C8_R) = some C8_R) :=
  ⟨⟨by decide, by decide, by decide⟩,
    round_trip_serialization C8_R (by decide) (by decide) (by decide)⟩

end MarkUpDownBot
